import Mathlib

/-! Verification of `similarity.go` (js-ojus/damlevdist.go).

A shallow embedding of the distance engine (`distance`), of the bounded minima
structure (`updateMinimum`) and of the two comparators (`similarity`,
`refSimilarity`) of `similarity.go`, followed by theorems about them.

Modelling conventions.

* A Go `string` is a sequence of bytes: `Str := List Byte`, `Byte := Fin 256`.
  `len(s)` is `s.length`, `s[i]` is `s[i]?` (an out-of-range index faults: `none`).
* Go `int` is modelled by `Int`.  Every value the code computes is bounded by the
  sum of the lengths of two strings held in memory, so 64-bit overflow is out of
  reach.
* The table `tab` is a list of rows.  Reads and writes are fallible
  (`tabGet`, `tabSet` return `none` outside the allocated table), so a fault of the
  Go program is the value `none` of the model.
* A `for` loop with a fixed range is a monadic fold over `List.range'`.
* `updateMinimum` is given twice.  `updateMinimumMem` keeps the storage of its two
  `[]int` slices explicit, so that slices of one backing array are visible.
  `updateMinimum` works on the lists of the elements of the slices.  The two agree on
  slices that share no storage (`updateMinimumMem_refines`), and `refSimilarity`
  allocates its slices separately (`insertAllMem_refines`); the comparators are built
  on `updateMinimum`.
* The comparators print lines; the model returns the list of the lines in the order
  they are printed.  A loop that prints is a recursive function on the iterations
  left, which returns the lines of these iterations.
* A float64 quotient is modelled by `Score`: the special values of a division by
  zero, and otherwise the pair of operands (rounding is not modelled).
-/

namespace Similarity

/-- A byte of a Go string. -/
abbrev Byte := Fin 256

/-- A Go string: a finite sequence of bytes. -/
abbrev Str := List Byte

/-- The Go constant `MIN_SET_SIZE`. -/
def MIN_SET_SIZE : Nat := 3

/-- The Go function `min`: the smaller of two integers. -/
def min (i1 i2 : Int) : Int :=
  if i1 < i2 then i1 else i2

/-- The dynamic programming matrix `tab`, a list of rows. -/
abbrev Table := List (List Int)

/-- The table after `make([][]int, rows)` with every row `make([]int, cols)`: all zero. -/
def mkTable (rows cols : Nat) : Table :=
  List.replicate rows (List.replicate cols 0)

/-- The read `tab[i][j]`; `none` when an index is out of range. -/
def tabGet (tab : Table) (i j : Nat) : Option Int :=
  match tab[i]? with
  | none => none
  | some row => row[j]?

/-- The write `tab[i][j] = v`; `none` when an index is out of range. -/
def tabSet (tab : Table) (i j : Nat) (v : Int) : Option Table :=
  match tab[i]? with
  | none => none
  | some row => if j < row.length then some (tab.set i (row.set j v)) else none

/-- The first initialisation loop of `distance`:
`for i := 0; i <= l1; i++ { tab[i+1][0] = limit; tab[i+1][1] = i }`. -/
def initRows (l1 : Nat) (limit : Int) (tab : Table) : Option Table :=
  (List.range' 0 (l1 + 1)).foldlM
    (fun tab i => do
      let tab ← tabSet tab (i + 1) 0 limit
      tabSet tab (i + 1) 1 (i : Int))
    tab

/-- The second initialisation loop of `distance`:
`for i := 0; i <= l2; i++ { tab[0][i+1] = limit; tab[1][i+1] = i }`. -/
def initCols (l2 : Nat) (limit : Int) (tab : Table) : Option Table :=
  (List.range' 0 (l2 + 1)).foldlM
    (fun tab i => do
      let tab ← tabSet tab 0 (i + 1) limit
      tabSet tab 1 (i + 1) (i : Int))
    tab

/-- The body of the inner loop of `distance` at indices `i`, `j` (both at least 1):
the cost of the pair, the minimum over deletion, insertion and substitution, and
the guarded transposition update.  The conjunction of the guard is evaluated left
to right with short circuit, as in Go.  The initial value `-1` of `cost` is
overwritten before its first use and is left out. -/
def cell (s1 s2 : Str) (i j : Nat) (tab : Table) : Option Table := do
  let a ← s1[i - 1]?
  let b ← s2[j - 1]?
  let cost : Int := if a = b then 0 else 1
  let del ← tabGet tab i (j + 1)
  let ins ← tabGet tab (i + 1) j
  let sub ← tabGet tab i j
  let tab ← tabSet tab (i + 1) (j + 1) (min (del + 1) (min (ins + 1) (sub + cost)))
  if 1 < i then
    if 1 < j then
      let a1 ← s1[i - 1]?
      let b2 ← s2[j - 2]?
      if a1 = b2 then
        let a2 ← s1[i - 2]?
        let b1 ← s2[j - 1]?
        if a2 = b1 then
          let cur ← tabGet tab (i + 1) (j + 1)
          let tr ← tabGet tab (i - 1) (j - 1)
          tabSet tab (i + 1) (j + 1) (min cur (tr + cost))
        else some tab
      else some tab
    else some tab
  else some tab

/-- The inner loop of `distance`: `for j := 1; j <= l2; j++ { ... }`. -/
def innerLoop (s1 s2 : Str) (i : Nat) (tab : Table) : Option Table :=
  (List.range' 1 s2.length).foldlM (fun tab j => cell s1 s2 i j tab) tab

/-- The main loop of `distance`: `for i := 1; i <= l1; i++ { ... }`. -/
def mainLoop (s1 s2 : Str) (tab : Table) : Option Table :=
  (List.range' 1 s1.length).foldlM (fun tab i => innerLoop s1 s2 i tab) tab

/-- The Go function `distance`.  The result is `none` if the program faults on an
index out of range. -/
def distance (s1 s2 : Str) : Option Int :=
  let l1 := s1.length
  let l2 := s2.length
  if l1 = 0 then some (l2 : Int)
  else if l2 = 0 then some (l1 : Int)
  else do
    let tab := mkTable (l1 + 2) (l2 + 2)
    let limit : Int := (l1 : Int) + (l2 : Int)
    let tab ← tabSet tab 0 0 limit
    let tab ← initRows l1 limit tab
    let tab ← initCols l2 limit tab
    let tab ← mainLoop s1 s2 tab
    tabGet tab (l1 + 1) (l2 + 1)

/-- The table-free reference recurrence for `distance`: `D i 0 = i`, `D 0 j = j`, and
for positive indices the minimum over deletion, insertion and substitution,
minimised further with the transposition term when the last two symbols of the
two prefixes are exchanged. -/
def D (s1 s2 : Str) : Nat → Nat → Int
  | 0, j => (j : Int)
  | i + 1, 0 => ((i + 1 : Nat) : Int)
  | i + 1, j + 1 =>
    let cost : Int := if s1[i]? = s2[j]? then 0 else 1
    let m : Int :=
      Min.min (D s1 s2 i (j + 1) + 1) (Min.min (D s1 s2 (i + 1) j + 1) (D s1 s2 i j + cost))
    if 0 < i ∧ 0 < j ∧ s1[i]? = s2[j - 1]? ∧ s1[i - 1]? = s2[j]? then
      Min.min m (D s1 s2 (i - 1) (j - 1) + cost)
    else m
termination_by i j => i + j
decreasing_by all_goals simp_wf <;> omega

/-- One unit-cost edit operation on a string: insert one symbol, delete one symbol,
substitute one symbol, or transpose two adjacent symbols. -/
inductive EditStep : Str → Str → Prop
  | insert (u v : Str) (c : Byte) : EditStep (u ++ v) (u ++ c :: v)
  | delete (u v : Str) (c : Byte) : EditStep (u ++ c :: v) (u ++ v)
  | substitute (u v : Str) (c d : Byte) : EditStep (u ++ c :: v) (u ++ d :: v)
  | transpose (u v : Str) (c d : Byte) : EditStep (u ++ c :: d :: v) (u ++ d :: c :: v)

/-- A sequence of `n` edit operations that transforms the first string into the second. -/
inductive EditSeq : Nat → Str → Str → Prop
  | done (s : Str) : EditSeq 0 s s
  | step {n : Nat} {s t u : Str} : EditStep s t → EditSeq n t u → EditSeq (n + 1) s u

/-- The number `d` is the Damerau-Levenshtein distance from `s1` to `s2`: some sequence
of `d` edit operations transforms `s1` into `s2`, and no shorter one does. -/
def IsDamerauLevenshtein (s1 s2 : Str) (d : Int) : Prop :=
  (∃ n : Nat, (n : Int) = d ∧ EditSeq n s1 s2) ∧ ∀ n : Nat, EditSeq n s1 s2 → d ≤ (n : Int)

/-- The string `s` with the symbols at positions `k` and `k + 1` exchanged. -/
def swapAt (s : Str) (k : Nat) : Str :=
  match s[k]?, s[k + 1]? with
  | some a, some b => (s.set k b).set (k + 1) a
  | _, _ => s

/-- The scan `for j, el := range minima { if el > d { i = j; break } }` of
`updateMinimum`, with `i` initially `-1`; the second argument is the index of the head. -/
def scan (d : Int) : List Int → Nat → Int
  | [], _ => -1
  | el :: rest, j => if el > d then (j : Int) else scan d rest (j + 1)

/-- The Go expression `append(xs[:i], append([]T{x}, xs[i:]...)...)`.  The slice
expression `xs[i:]` faults when `i` exceeds `len(xs)`. -/
def insertAt {α : Type} (xs : List α) (i : Nat) (x : α) : Option (List α) :=
  if i ≤ xs.length then some (xs.take i ++ ([x] ++ xs.drop i)) else none

/-- The Go statement `if len(xs) > MIN_SET_SIZE { xs = xs[:len(xs)-1] }`. -/
def trim {α : Type} (xs : List α) : List α :=
  if xs.length > MIN_SET_SIZE then xs.take (xs.length - 1) else xs

/-- The Go function `updateMinimum` on the lists of the elements of its slices.  This
is what the function computes when `minima` and `lnums` share no storage, as in
`refSimilarity`; `updateMinimumMem` below covers slices that share storage.  The
result is `none` if a slice expression faults. -/
def updateMinimum (minima : List Int) (d : Int) (sv : List Str) (s1 : Str)
    (lnums : List Int) (ln : Int) : Option (List Int × List Str × List Int) :=
  if minima.length = 0 then
    some (minima ++ [d], sv ++ [s1], lnums ++ [ln])
  else
    let i : Int := scan d minima 0
    if i = -1 ∧ minima.length < MIN_SET_SIZE then
      some (minima ++ [d], sv ++ [s1], lnums ++ [ln])
    else if i > -1 then do
      let minima ← insertAt minima i.toNat d
      let minima := trim minima
      let sv ← insertAt sv i.toNat s1
      let sv := trim sv
      let lnums ← insertAt lnums i.toNat ln
      let lnums := trim lnums
      some (minima, sv, lnums)
    else
      some (minima, sv, lnums)

/-- An entry of the bounded minima structure: distance, string, position. -/
abbrev Entry := Int × Str × Int

/-- A stream of inserts `(d, string, position)` applied by `updateMinimum`, one call
per element in order, starting from three empty slices (the inner loop of
`refSimilarity` on a stream of distances, which allocates the three slices
separately). -/
def insertAll (xs : List Entry) : Option (List Int × List Str × List Int) :=
  xs.foldlM (fun st x => updateMinimum st.1 x.1 st.2.1 x.2.1 st.2.2 x.2.2) ([], [], [])

/-! ### `updateMinimum` on slices that may share storage

The two `[]int` arguments of `updateMinimum` can be slices of one backing array.  The
definitions below keep the storage explicit: a slice is an offset, a length and a
capacity in a memory of `int` cells, and `append` writes in place when the capacity
suffices.  The `[]string` argument cannot share storage with the other two, and the
statement that rebuilds it reads it before it writes, so a list is exact for it. -/

/-- The storage of the `[]int` arrays: the cells, and the first address that is not
allocated. -/
structure Mem where
  cell : Nat → Int
  next : Nat

/-- A Go slice of `int`: the address of its first element, its length and its
capacity. -/
structure Slice where
  off : Nat
  len : Nat
  cap : Nat
  deriving DecidableEq

/-- The memory that holds the given cells from address 0 on. -/
def memOf (xs : List Int) : Mem :=
  { cell := fun a => xs.getD a 0, next := xs.length }

/-- The elements of a slice, as `range` reads them. -/
def view (m : Mem) (s : Slice) : List Int :=
  (List.range' s.off s.len).map m.cell

/-- The memory after the values `xs` are written from address `p` on. -/
def store (m : Mem) (p : Nat) (xs : List Int) : Mem :=
  { cell := fun a => if p ≤ a ∧ a < p + xs.length then xs.getD (a - p) 0 else m.cell a,
    next := m.next }

/-- The Go call `make([]int, 0, c)`: a new array of `c` zero cells. -/
def makeInts (m : Mem) (c : Nat) : Mem × Slice :=
  ({ cell := (store m m.next (List.replicate c 0)).cell, next := m.next + c },
    { off := m.next, len := 0, cap := c })

/-- The Go call `append(s, xs...)`.  If the capacity of `s` suffices the values are
written behind the elements of `s`, in its backing array.  Otherwise a new array
receives the elements of `s` and the values; its capacity is chosen by the run time
and is the parameter `grow`, applied to the old capacity and the length needed. -/
def appendInts (grow : Nat → Nat → Nat) (m : Mem) (s : Slice) (xs : List Int) : Mem × Slice :=
  if s.len + xs.length ≤ s.cap then
    (store m (s.off + s.len) xs, { off := s.off, len := s.len + xs.length, cap := s.cap })
  else
    ({ cell := (store m m.next
          (view m s ++ xs ++
            List.replicate (grow s.cap (s.len + xs.length) - (s.len + xs.length)) 0)).cell,
       next := m.next + grow s.cap (s.len + xs.length) },
      { off := m.next, len := s.len + xs.length, cap := grow s.cap (s.len + xs.length) })

/-- The slice expression `s[:i]`, which faults when `i` exceeds the capacity. -/
def sliceTo (s : Slice) (i : Nat) : Option Slice :=
  if i ≤ s.cap then some { off := s.off, len := i, cap := s.cap } else none

/-- The slice expression `s[i:]`, which faults when `i` exceeds the length. -/
def sliceFrom (s : Slice) (i : Nat) : Option Slice :=
  if i ≤ s.len then some { off := s.off + i, len := s.len - i, cap := s.cap - i } else none

/-- The Go expression `append(s[:i], append([]int{x}, s[i:]...)...)`.  The inner
`append` builds `x` followed by the elements of `s[i:]` in storage of its own, which
nothing else refers to: it is kept as a value.  The outer `append` then writes it
behind `s[:i]`. -/
def insertIntAt (grow : Nat → Nat → Nat) (m : Mem) (s : Slice) (i : Nat) (x : Int) :
    Option (Mem × Slice) := do
  let front ← sliceTo s i
  let back ← sliceFrom s i
  some (appendInts grow m front (x :: view m back))

/-- The Go statement `if len(s) > MIN_SET_SIZE { s = s[:len(s)-1] }` on a slice. -/
def trimSlice (s : Slice) : Slice :=
  if s.len > MIN_SET_SIZE then { off := s.off, len := s.len - 1, cap := s.cap } else s

/-- The Go function `updateMinimum`, with the storage of `minima` and `lnums` explicit.
The statements run in the order of the source: `minima`, then `sv`, then `lnums`. -/
def updateMinimumMem (grow : Nat → Nat → Nat) (m : Mem) (minima : Slice) (d : Int)
    (sv : List Str) (s1 : Str) (lnums : Slice) (ln : Int) :
    Option (Mem × Slice × List Str × Slice) :=
  if minima.len = 0 then
    let r1 := appendInts grow m minima [d]
    let r2 := appendInts grow r1.1 lnums [ln]
    some (r2.1, r1.2, sv ++ [s1], r2.2)
  else
    let i : Int := scan d (view m minima) 0
    if i = -1 ∧ minima.len < MIN_SET_SIZE then
      let r1 := appendInts grow m minima [d]
      let r2 := appendInts grow r1.1 lnums [ln]
      some (r2.1, r1.2, sv ++ [s1], r2.2)
    else if i > -1 then do
      let r1 ← insertIntAt grow m minima i.toNat d
      let minima := trimSlice r1.2
      let sv ← insertAt sv i.toNat s1
      let sv := trim sv
      let r2 ← insertIntAt grow r1.1 lnums i.toNat ln
      let lnums := trimSlice r2.2
      some (r2.1, minima, sv, lnums)
    else
      some (m, minima, sv, lnums)

/-- The elements of the three slices that `updateMinimumMem` returns. -/
def readBack (r : Mem × Slice × List Str × Slice) : List Int × List Str × List Int :=
  (view r.1 r.2.1, r.2.2.1, view r.1 r.2.2.2)

/-- A stream of inserts applied by `updateMinimumMem`, one call per element in order,
starting from the slices that `refSimilarity` allocates: `make([]int, 0, MIN_SET_SIZE)`
for `minima`, an empty `sv`, `make([]int, 0, MIN_SET_SIZE)` for `lnums`. -/
def insertAllMem (grow : Nat → Nat → Nat) (xs : List Entry) :
    Option (Mem × Slice × List Str × Slice) :=
  let a := makeInts { cell := fun _ => 0, next := 0 } MIN_SET_SIZE
  let b := makeInts a.1 MIN_SET_SIZE
  xs.foldlM
    (fun st x => updateMinimumMem grow st.1 st.2.1 x.1 st.2.2.1 x.2.1 st.2.2.2 x.2.2)
    (b.1, a.2, [], b.2)

/-- The slice lies in allocated storage and its length is within its capacity. -/
def Slice.WF (m : Mem) (s : Slice) : Prop :=
  s.len ≤ s.cap ∧ s.off + s.cap ≤ m.next

instance (m : Mem) (s : Slice) : Decidable (s.WF m) :=
  inferInstanceAs (Decidable (s.len ≤ s.cap ∧ s.off + s.cap ≤ m.next))

/-- Two slices share no storage: their ranges of capacity do not overlap. -/
def Slice.Apart (a b : Slice) : Prop :=
  a.off + a.cap ≤ b.off ∨ b.off + b.cap ≤ a.off

instance (a b : Slice) : Decidable (a.Apart b) :=
  inferInstanceAs (Decidable (a.off + a.cap ≤ b.off ∨ b.off + b.cap ≤ a.off))

/-- The pair `r` of a memory and a slice is the result of an operation on the slice `s`
in the memory `m` that writes only in the storage of `s` or in new storage: the new
slice is well formed and lies in the storage of `s` or in new storage, and the cells
allocated in `m` outside the storage of `s` keep their values. -/
def Writes (m : Mem) (s : Slice) (r : Mem × Slice) : Prop :=
  r.2.WF r.1 ∧ m.next ≤ r.1.next ∧
    ((r.2.off = s.off ∧ r.2.cap = s.cap) ∨ m.next ≤ r.2.off) ∧
    ∀ a, a < m.next → ¬ (s.off ≤ a ∧ a < s.off + s.cap) → r.1.cell a = m.cell a

/-- The value of the float64 division `float64(d)/float64(ml)` of two Go ints.  A
zero divisor gives one of the special values of IEEE 754 arithmetic (Go does not
fault on a floating-point division by zero); otherwise the quotient is kept as the
pair of its operands, of which the float64 is the rounding. -/
inductive Score where
  | nan : Score
  | posInf : Score
  | negInf : Score
  | ratio (d ml : Int) : Score
  deriving DecidableEq

/-- The Go expression `float64(d)/float64(ml)`: `0/0` is NaN, `d/0` is an infinity
with the sign of `d`. -/
def fdiv (d ml : Int) : Score :=
  if ml = 0 then
    if d = 0 then Score.nan else if 0 < d then Score.posInf else Score.negInf
  else Score.ratio d ml

/-- One result line printed with the format `"%.4g\t%d\t%d\t%d\t%s\t%s\n"`: the score,
the distance, two positions and two strings, in the order of the arguments of
`Printf`. -/
structure Result where
  score : Score
  d : Int
  pos1 : Int
  pos2 : Int
  str1 : Str
  str2 : Str
  deriving DecidableEq

/-- A line of the output of `refSimilarity`: a result line or the line `----`. -/
inductive Line where
  | result (r : Result) : Line
  | marker : Line
  deriving DecidableEq

/-- The inner loop of `similarity`, `for j := ...; j < l; j++ { ... }`, with `n`
iterations left at index `j`: the lines printed, in order. -/
def pairLoop (v : List Str) (i : Nat) (s1 : Str) : Nat → Nat → Option (List Result)
  | 0, _ => some []
  | n + 1, j => do
    let s2 ← v[j]?
    let d ← distance s1 s2
    let ml : Int := (s1.length : Int) + (s2.length : Int)
    let out ← pairLoop v i s1 n (j + 1)
    some ({ score := fdiv d ml, d := d, pos1 := (i : Int) + 1, pos2 := (j : Int) + 1,
            str1 := s1, str2 := s2 } :: out)

/-- The outer loop of `similarity`, `for i := ...; i < l-1; i++ { ... }`, with `n`
iterations left at index `i`.  The inner loop starts at `j = i + 1` and runs while
`j < l`, that is `l - (i + 1)` times. -/
def rowLoop (v : List Str) : Nat → Nat → Option (List Result)
  | 0, _ => some []
  | n + 1, i => do
    let s1 ← v[i]?
    let row ← pairLoop v i s1 (v.length - (i + 1)) (i + 1)
    let out ← rowLoop v n (i + 1)
    some (row ++ out)

/-- The Go function `similarity`: the result lines it prints, in order.  The outer loop
runs from `i = 0` while `i < l-1`: `l - 1` times, and not at all when `l = 0`. -/
def similarity (v : List Str) : Option (List Result) :=
  rowLoop v (v.length - 1) 0

/-- The loop `for j, s1 := range v1 { ... }` of `refSimilarity` from index `j` on:
the distance of each reference string to the test string `s2` goes through
`updateMinimum`. -/
def scanRefs (s2 : Str) :
    Nat → List Str → List Int × List Str × List Int → Option (List Int × List Str × List Int)
  | _, [], st => some st
  | j, s1 :: rest, st => do
    let d ← distance s1 s2
    let st ← updateMinimum st.1 d st.2.1 s1 st.2.2 (j : Int)
    scanRefs s2 (j + 1) rest st

/-- The loop `for k, d := range minima { ... }` of `refSimilarity` from index `k` on:
the result lines printed for the test string `s2` at index `i`. -/
def printMinima (i : Nat) (s2 : Str) (sv : List Str) (lnums : List Int) :
    Nat → List Int → Option (List Line)
  | _, [] => some []
  | k, d :: rest => do
    let s1 ← sv[k]?
    let ml : Int := (s1.length : Int) + (s2.length : Int)
    let ln ← lnums[k]?
    let out ← printMinima i s2 sv lnums (k + 1) rest
    some (Line.result { score := fdiv d ml, d := d, pos1 := (i : Int) + 1, pos2 := ln + 1,
                        str1 := s2, str2 := s1 } :: out)

/-- The loop `for i, s2 := range v2 { ... }` of `refSimilarity` from index `i` on. -/
def refLoop (v1 : List Str) : Nat → List Str → Option (List Line)
  | _, [] => some []
  | i, s2 :: rest => do
    let st ← scanRefs s2 0 v1 ([], [], [])
    let block ← printMinima i s2 st.2.1 st.2.2 0 st.1
    let out ← refLoop v1 (i + 1) rest
    some (block ++ Line.marker :: out)

/-- The Go function `refSimilarity`: the lines it prints, in order. -/
def refSimilarity (v1 v2 : List Str) : Option (List Line) :=
  refLoop v1 0 v2

/-! ## Definitions used in the statements and proofs -/

/-- Every cell of the `r` by `c` rectangle can be read. -/
def InB (tab : Table) (r c : Nat) : Prop :=
  ∀ i j, i < r → j < c → ∃ v, tabGet tab i j = some v

/-- The cost of the pair of symbols at positions `i` and `j`. -/
def cost (s1 s2 : Str) (i j : Nat) : Int :=
  if s1[i]? = s2[j]? then 0 else 1

/-- The minimum over deletion, insertion and substitution. -/
def base (s1 s2 : Str) (i j : Nat) : Int :=
  Min.min (D s1 s2 i (j + 1) + 1)
    (Min.min (D s1 s2 (i + 1) j + 1) (D s1 s2 i j + cost s1 s2 i j))

/-- The symbols at `i - 1`, `i` of `s1` and `j - 1`, `j` of `s2` form an adjacent swap. -/
def Swapped (s1 s2 : Str) (i j : Nat) : Prop :=
  0 < i ∧ 0 < j ∧ s1[i]? = s2[j - 1]? ∧ s1[i - 1]? = s2[j]?

instance (s1 s2 : Str) (i j : Nat) : Decidable (Swapped s1 s2 i j) :=
  inferInstanceAs (Decidable (0 < i ∧ 0 < j ∧ s1[i]? = s2[j - 1]? ∧ s1[i - 1]? = s2[j]?))

/-- The state of the table when the main loop is at row `i`, column `j`: the cells of
the rows before `i`, of row `i` before column `j`, and of the first column hold the
values of the recurrence (`D a b` is stored at `tab[a+1][b+1]`). -/
def Filled (s1 s2 : Str) (i j : Nat) (tab : Table) : Prop :=
  InB tab (s1.length + 2) (s2.length + 2) ∧
    ∀ a b, a ≤ s1.length → b ≤ s2.length → (a < i ∨ (a = i ∧ b < j) ∨ b = 0) →
      tabGet tab (a + 1) (b + 1) = some (D s1 s2 a b)

/-- The order of entries by distance. -/
def byDistance (a b : Entry) : Prop := a.1 ≤ b.1

instance : DecidableRel byDistance :=
  fun a b => inferInstanceAs (Decidable (a.1 ≤ b.1))

/-- Insertion of an entry in front of the first entry of strictly greater distance,
at the end if there is none. -/
def stableInsert (x : Entry) : List Entry → List Entry
  | [] => [x]
  | y :: l => if y.1 > x.1 then x :: y :: l else y :: stableInsert x l

/-- The three parallel slices of a list of entries. -/
def slices (l : List Entry) : List Int × List Str × List Int :=
  (l.map (fun e => e.1), l.map (fun e => e.2.1), l.map (fun e => e.2.2))

/-- The list `l` is the stream `xs` stably sorted by distance: a rearrangement of `xs`
in ascending order of distance in which entries of equal distance keep the order
they have in `xs`. -/
def IsStableSortOf (xs l : List Entry) : Prop :=
  l.Perm xs ∧ l.Sorted byDistance ∧
    ∀ v : Int, l.filter (fun e => decide (e.1 = v)) = xs.filter (fun e => decide (e.1 = v))

/-- The invariant of the bounded minima structure: at most `MIN_SET_SIZE` entries,
distances ascending, the three slices of equal length. -/
def MinimaInv (r : List Int × List Str × List Int) : Prop :=
  r.1.length ≤ MIN_SET_SIZE ∧ r.1.Sorted (· ≤ ·) ∧
    r.2.1.length = r.1.length ∧ r.2.2.length = r.1.length

instance : IsTotal Entry byDistance :=
  ⟨fun a b => by unfold byDistance; omega⟩

instance : IsTrans Entry byDistance :=
  ⟨fun a b c h1 h2 => by unfold byDistance at *; omega⟩

/-- The result line of `similarity` for the strings `s1`, `s2` at indices `i`, `j`. -/
def pairResult (i j : Nat) (s1 s2 : Str) : Result :=
  { score := fdiv (D s1 s2 s1.length s2.length) ((s1.length : Int) + (s2.length : Int)),
    d := D s1 s2 s1.length s2.length,
    pos1 := (i : Int) + 1, pos2 := (j : Int) + 1, str1 := s1, str2 := s2 }

/-- The result lines of `similarity` for the index `i` and all later indices `j`. -/
def pairsOf (v : List Str) (i : Nat) : List Result :=
  (List.range' (i + 1) (v.length - (i + 1))).map
    (fun j => pairResult i j (v.getD i []) (v.getD j []))

/-- The result lines of `similarity` for `n` first indices from `i` on. -/
def allPairs (v : List Str) (i n : Nat) : List Result :=
  (List.range' i n).flatMap (pairsOf v)

/-- The two positions of a result line. -/
def positions (r : Result) : Int × Int := (r.pos1, r.pos2)

/-- The lexicographic order of pairs of positions. -/
def lexLt (p q : Int × Int) : Prop :=
  p.1 < q.1 ∨ (p.1 = q.1 ∧ p.2 < q.2)

instance : DecidableRel lexLt :=
  fun p q => inferInstanceAs (Decidable (p.1 < q.1 ∨ (p.1 = q.1 ∧ p.2 < q.2)))

/-- The stream of inserts made by the scan of the reference strings, from index `j`
on, against the test string `s2`. -/
def refStream (s2 : Str) : Nat → List Str → List Entry
  | _, [] => []
  | j, s1 :: rest => (D s1 s2 s1.length s2.length, s1, (j : Int)) :: refStream s2 (j + 1) rest

/-- The entries retained for the test string `s2`: the first `MIN_SET_SIZE` entries of
the stream sorted by insertion sort on the distance. -/
def retained (v1 : List Str) (s2 : Str) : List Entry :=
  ((refStream s2 0 v1).insertionSort byDistance).take MIN_SET_SIZE

/-- The result line of `refSimilarity` for a retained entry and the test string `s2`
at index `i`. -/
def entryResult (i : Nat) (s2 : Str) (e : Entry) : Result :=
  { score := fdiv e.1 ((e.2.1.length : Int) + (s2.length : Int)), d := e.1,
    pos1 := (i : Int) + 1, pos2 := e.2.2 + 1, str1 := s2, str2 := e.2.1 }

/-- The result lines of the block of the test string `s2` at index `i`. -/
def refBlock (v1 : List Str) (i : Nat) (s2 : Str) : List Result :=
  (retained v1 s2).map (entryResult i s2)

/-- The blocks of the test strings from index `i` on. -/
def refBlocks (v1 : List Str) : Nat → List Str → List (List Result)
  | _, [] => []
  | i, s2 :: rest => refBlock v1 i s2 :: refBlocks v1 (i + 1) rest

/-- The lines of a list of blocks: the result lines of each block, followed by one
line `----`. -/
def render (blocks : List (List Result)) : List Line :=
  blocks.flatMap (fun b => b.map Line.result ++ [Line.marker])

/-- The result lines of an output that carry the test position `p + 1`: the lines
printed for the test string at index `p`. -/
def linesFor (out : List Line) (p : Nat) : List Result :=
  out.filterMap (fun l =>
    match l with
    | Line.result r => if r.pos1 = (p : Int) + 1 then some r else none
    | Line.marker => none)

/-! ## The table -/

theorem min_eq (a b : Int) : min a b = Min.min a b := by
  unfold min
  split <;> omega

theorem tabGet_mkTable (r c i j : Nat) :
    tabGet (mkTable r c) i j = if i < r ∧ j < c then some 0 else none := by
  unfold tabGet mkTable
  by_cases hi : i < r
  · by_cases hj : j < c
    · simp [hi, hj, List.getElem?_replicate]
    · simp [hi, hj, List.getElem?_replicate]
  · simp [hi, List.getElem?_replicate]

theorem tabGet_tabSet {tab tab' : Table} {i j : Nat} {v : Int}
    (h : tabSet tab i j v = some tab') (a b : Nat) :
    tabGet tab' a b = if a = i ∧ b = j then some v else tabGet tab a b := by
  unfold tabSet at h
  cases hrow : tab[i]? with
  | none => simp [hrow] at h
  | some row =>
    simp only [hrow] at h
    split at h
    · rename_i hj
      have hi : i < tab.length := by
        rcases List.getElem?_eq_some_iff.mp hrow with ⟨hi, -⟩
        exact hi
      injection h with h
      subst h
      unfold tabGet
      by_cases hai : a = i
      · subst hai
        by_cases hbj : b = j
        · subst hbj
          simp [List.getElem?_set, hi, hj]
        · have hbj' : ¬ j = b := fun e => hbj e.symm
          simp [List.getElem?_set, hi, hbj, hbj', hrow]
      · have hai' : ¬ i = a := fun e => hai e.symm
        simp [List.getElem?_set, hai, hai']
    · simp at h

theorem tabSet_spec {tab : Table} {r c i j : Nat} (v : Int) (h : InB tab r c)
    (hi : i < r) (hj : j < c) :
    ∃ tab', tabSet tab i j v = some tab' ∧ InB tab' r c ∧
      ∀ a b, tabGet tab' a b = if a = i ∧ b = j then some v else tabGet tab a b := by
  obtain ⟨w, hw⟩ := h i j hi hj
  have hex : ∃ tab', tabSet tab i j v = some tab' := by
    unfold tabGet at hw
    unfold tabSet
    cases hrow : tab[i]? with
    | none => simp [hrow] at hw
    | some row =>
      simp only [hrow] at hw
      have hj' : j < row.length := by
        rcases List.getElem?_eq_some_iff.mp hw with ⟨hj', -⟩
        exact hj'
      simp [hj']
  obtain ⟨tab', htab'⟩ := hex
  refine ⟨tab', htab', ?_, tabGet_tabSet htab'⟩
  intro a b ha hb
  rw [tabGet_tabSet htab']
  split
  · exact ⟨v, rfl⟩
  · exact h a b ha hb

/-- The rule for a counted loop: an invariant that every iteration re-establishes
holds when the loop ends, and the loop does not fault. -/
theorem foldlM_range'_inv {σ : Type} (f : σ → Nat → Option σ) (P : Nat → σ → Prop) (n : Nat) :
    ∀ (a : Nat) (s : σ), P a s →
      (∀ k s, a ≤ k → k < a + n → P k s → ∃ s', f s k = some s' ∧ P (k + 1) s') →
      ∃ s', (List.range' a n).foldlM f s = some s' ∧ P (a + n) s' := by
  induction n with
  | zero =>
    intro a s hP _
    exact ⟨s, by simp, by simpa using hP⟩
  | succ n ih =>
    intro a s hP hstep
    obtain ⟨s1, hs1, hP1⟩ := hstep a s (Nat.le_refl a) (by omega) hP
    obtain ⟨s2, hs2, hP2⟩ := ih (a + 1) s1 hP1 (fun k s hk hk' hPk =>
      hstep k s (by omega) (by omega) hPk)
    refine ⟨s2, ?_, ?_⟩
    · simp [List.range'_succ, List.foldlM_cons, hs1, hs2]
    · have : a + (n + 1) = a + 1 + n := by omega
      rw [this]
      exact hP2

/-! ## The reference recurrence -/

theorem D_zero_left (s1 s2 : Str) (j : Nat) : D s1 s2 0 j = (j : Int) := by
  rw [D]

theorem D_zero_right (s1 s2 : Str) (i : Nat) : D s1 s2 i 0 = (i : Int) := by
  cases i with
  | zero => rw [D]
  | succ i => rw [D]

theorem D_succ_succ (s1 s2 : Str) (i j : Nat) :
    D s1 s2 (i + 1) (j + 1) =
      if Swapped s1 s2 i j then
        Min.min (base s1 s2 i j) (D s1 s2 (i - 1) (j - 1) + cost s1 s2 i j)
      else base s1 s2 i j := by
  rw [D]
  rfl

/-! ## The table computes the recurrence -/

theorem Filled_next (s1 s2 : Str) (i j : Nat) (tab tab' : Table)
    (h : Filled s1 s2 (i + 1) (j + 1) tab)
    (hB : InB tab' (s1.length + 2) (s2.length + 2))
    (hG : ∀ a b, tabGet tab' a b =
      if a = i + 1 + 1 ∧ b = j + 1 + 1 then some (D s1 s2 (i + 1) (j + 1)) else tabGet tab a b) :
    Filled s1 s2 (i + 1) (j + 2) tab' := by
  refine ⟨hB, ?_⟩
  intro a b ha hb hc
  rw [hG]
  split
  · rename_i hab
    obtain ⟨h1, h2⟩ := hab
    have ea : a = i + 1 := by omega
    have eb : b = j + 1 := by omega
    subst ea
    subst eb
    rfl
  · rename_i hab
    apply h.2 a b ha hb
    by_cases hlt : a < i + 1
    · exact Or.inl hlt
    · by_cases hb0 : b = 0
      · exact Or.inr (Or.inr hb0)
      · refine Or.inr (Or.inl ⟨by omega, ?_⟩)
        by_contra hcon
        apply hab
        constructor <;> omega

theorem cell_spec (s1 s2 : Str) (i j : Nat) (tab : Table)
    (hi : i < s1.length) (hj : j < s2.length)
    (h : Filled s1 s2 (i + 1) (j + 1) tab) :
    ∃ tab', cell s1 s2 (i + 1) (j + 1) tab = some tab' ∧ Filled s1 s2 (i + 1) (j + 2) tab' := by
  obtain ⟨hB, hF⟩ := h
  have ha : s1[i]? = some s1[i] := List.getElem?_eq_getElem hi
  have hb : s2[j]? = some s2[j] := List.getElem?_eq_getElem hj
  have hdel := hF i (j + 1) (by omega) (by omega) (by omega)
  have hins := hF (i + 1) j (by omega) (by omega) (by omega)
  have hsub := hF i j (by omega) (by omega) (by omega)
  have hcost : (if s1[i] = s2[j] then (0 : Int) else 1) = cost s1 s2 i j := by
    simp [cost, ha, hb]
  have hV : min (D s1 s2 i (j + 1) + 1)
      (min (D s1 s2 (i + 1) j + 1) (D s1 s2 i j + if s1[i] = s2[j] then 0 else 1)) =
      base s1 s2 i j := by
    rw [hcost, min_eq, min_eq]
    rfl
  obtain ⟨tab1, htab1, hB1, hG1⟩ :=
    tabSet_spec (i := i + 1 + 1) (j := j + 1 + 1)
      (min (D s1 s2 i (j + 1) + 1)
        (min (D s1 s2 (i + 1) j + 1) (D s1 s2 i j + if s1[i] = s2[j] then 0 else 1)))
      hB (by omega) (by omega)
  rw [hV] at hG1
  unfold cell
  simp only [Nat.add_sub_cancel, ha, hb, hdel, hins, hsub, htab1, Option.bind_eq_bind,
    Option.some_bind]
  -- the table when no transposition applies
  have plain : ¬ Swapped s1 s2 i j → Filled s1 s2 (i + 1) (j + 2) tab1 := by
    intro hns
    apply Filled_next s1 s2 i j tab tab1 ⟨hB, hF⟩ hB1
    intro a b
    rw [hG1 a b, D_succ_succ, if_neg hns]
  by_cases hi0 : 1 < i + 1
  · by_cases hj0 : 1 < j + 1
    · obtain ⟨i0, rfl⟩ : ∃ i0, i = i0 + 1 := ⟨i - 1, by omega⟩
      obtain ⟨j0, rfl⟩ : ∃ j0, j = j0 + 1 := ⟨j - 1, by omega⟩
      have hb2 : s2[j0]? = some s2[j0] := List.getElem?_eq_getElem (by omega)
      have ha2 : s1[i0]? = some s1[i0] := List.getElem?_eq_getElem (by omega)
      have e1 : j0 + 1 + 1 - 2 = j0 := by omega
      have e2 : i0 + 1 + 1 - 2 = i0 := by omega
      simp only [hi0, hj0, if_true, e1, e2, hb2, ha2, Option.some_bind]
      by_cases c1 : s1[i0 + 1] = s2[j0]
      · by_cases c2 : s1[i0] = s2[j0 + 1]
        · have hsw : Swapped s1 s2 (i0 + 1) (j0 + 1) := by
            refine ⟨by omega, by omega, ?_, ?_⟩
            · simp [ha, hb2, c1]
            · simp [ha2, hb, c2]
          have hcur : tabGet tab1 (i0 + 1 + 1 + 1) (j0 + 1 + 1 + 1) =
              some (base s1 s2 (i0 + 1) (j0 + 1)) := by
            rw [hG1]
            simp
          have htr : tabGet tab1 (i0 + 1) (j0 + 1) = some (D s1 s2 i0 j0) := by
            rw [hG1, if_neg (by omega)]
            exact hF i0 j0 (by omega) (by omega) (by omega)
          obtain ⟨tab2, htab2, hB2, hG2⟩ :=
            tabSet_spec (i := i0 + 1 + 1 + 1) (j := j0 + 1 + 1 + 1)
              (min (base s1 s2 (i0 + 1) (j0 + 1))
                (D s1 s2 i0 j0 + if s1[i0 + 1] = s2[j0 + 1] then 0 else 1))
              hB1 (by omega) (by omega)
          rw [if_pos c1, if_pos c2]
          simp only [hcur, htr, Option.some_bind, htab2]
          refine ⟨tab2, rfl, ?_⟩
          apply Filled_next s1 s2 (i0 + 1) (j0 + 1) tab tab2 ⟨hB, hF⟩ hB2
          intro a b
          rw [hG2 a b, hG1 a b, D_succ_succ, if_pos hsw, hcost, min_eq]
          split
          · rfl
          · rfl
        · rw [if_pos c1, if_neg c2]
          refine ⟨tab1, rfl, plain ?_⟩
          intro hsw
          apply c2
          have := hsw.2.2.2
          simpa [ha2, hb] using this
      · rw [if_neg c1]
        refine ⟨tab1, rfl, plain ?_⟩
        intro hsw
        apply c1
        have := hsw.2.2.1
        simpa [ha, hb2] using this
    · simp only [hi0, hj0, if_true, if_false]
      exact ⟨tab1, rfl, plain (fun hsw => hj0 (by have := hsw.2.1; omega))⟩
  · simp only [hi0, if_false]
    exact ⟨tab1, rfl, plain (fun hsw => hi0 (by have := hsw.1; omega))⟩

theorem innerLoop_spec (s1 s2 : Str) (i : Nat) (tab : Table) (hi : i < s1.length)
    (h : Filled s1 s2 (i + 1) 1 tab) :
    ∃ tab', innerLoop s1 s2 (i + 1) tab = some tab' ∧ Filled s1 s2 (i + 2) 1 tab' := by
  obtain ⟨tab', hrun, hP⟩ :=
    foldlM_range'_inv (fun tab j => cell s1 s2 (i + 1) j tab)
      (fun k tab => Filled s1 s2 (i + 1) k tab) s2.length 1 tab h
      (by
        intro k t hk1 hk2 hPk
        obtain ⟨k0, rfl⟩ : ∃ k0, k = k0 + 1 := ⟨k - 1, by omega⟩
        exact cell_spec s1 s2 i k0 t hi (by omega) hPk)
  refine ⟨tab', hrun, hP.1, ?_⟩
  intro a b ha hb hc
  apply hP.2 a b ha hb
  by_cases hlt : a < i + 1
  · exact Or.inl hlt
  · by_cases hb0 : b = 0
    · exact Or.inr (Or.inr hb0)
    · exact Or.inr (Or.inl ⟨by omega, by omega⟩)

theorem mainLoop_spec (s1 s2 : Str) (tab : Table) (h : Filled s1 s2 1 1 tab) :
    ∃ tab', mainLoop s1 s2 tab = some tab' ∧ Filled s1 s2 (s1.length + 1) 1 tab' := by
  obtain ⟨tab', hrun, hP⟩ :=
    foldlM_range'_inv (fun tab i => innerLoop s1 s2 i tab)
      (fun k tab => Filled s1 s2 k 1 tab) s1.length 1 tab h
      (by
        intro k t hk1 hk2 hPk
        obtain ⟨k0, rfl⟩ : ∃ k0, k = k0 + 1 := ⟨k - 1, by omega⟩
        exact innerLoop_spec s1 s2 k0 t (by omega) hPk)
  refine ⟨tab', hrun, ?_⟩
  have e : 1 + s1.length = s1.length + 1 := by omega
  rw [e] at hP
  exact hP

theorem initRows_spec (l1 r c : Nat) (limit : Int) (tab : Table) (hr : l1 + 2 ≤ r) (hc : 2 ≤ c)
    (hB : InB tab r c) :
    ∃ tab', initRows l1 limit tab = some tab' ∧ InB tab' r c ∧
      ∀ a, a ≤ l1 → tabGet tab' (a + 1) 1 = some (a : Int) := by
  obtain ⟨tab', hrun, hP⟩ :=
    foldlM_range'_inv
      (fun tab i => do
        let tab ← tabSet tab (i + 1) 0 limit
        tabSet tab (i + 1) 1 (i : Int))
      (fun k tab => InB tab r c ∧ ∀ a, a < k → tabGet tab (a + 1) 1 = some (a : Int))
      (l1 + 1) 0 tab ⟨hB, by intro a ha; omega⟩
      (by
        intro k t _ hk ⟨hBt, hFt⟩
        obtain ⟨t1, ht1, hB1, hG1⟩ := tabSet_spec (i := k + 1) (j := 0) limit hBt (by omega) (by omega)
        obtain ⟨t2, ht2, hB2, hG2⟩ :=
          tabSet_spec (i := k + 1) (j := 1) (k : Int) hB1 (by omega) (by omega)
        refine ⟨t2, ?_, hB2, ?_⟩
        · simp only [ht1, Option.bind_eq_bind, Option.some_bind, ht2]
        · intro a ha
          rw [hG2, hG1]
          by_cases hak : a = k
          · subst hak
            simp
          · have h1 : ¬ (a + 1 = k + 1 ∧ (1 : Nat) = 1) := by omega
            have h2 : ¬ (a + 1 = k + 1 ∧ (1 : Nat) = 0) := by omega
            rw [if_neg h1, if_neg h2]
            exact hFt a (by omega))
  refine ⟨tab', hrun, hP.1, ?_⟩
  intro a ha
  exact hP.2 a (by omega)

theorem initCols_spec (l1 l2 r c : Nat) (limit : Int) (tab : Table) (hr : 2 ≤ r) (hc : l2 + 2 ≤ c)
    (hB : InB tab r c) (hF : ∀ a, a ≤ l1 → tabGet tab (a + 1) 1 = some (a : Int)) :
    ∃ tab', initCols l2 limit tab = some tab' ∧ InB tab' r c ∧
      (∀ a, a ≤ l1 → tabGet tab' (a + 1) 1 = some (a : Int)) ∧
      ∀ b, b ≤ l2 → tabGet tab' 1 (b + 1) = some (b : Int) := by
  obtain ⟨tab', hrun, hP⟩ :=
    foldlM_range'_inv
      (fun tab i => do
        let tab ← tabSet tab 0 (i + 1) limit
        tabSet tab 1 (i + 1) (i : Int))
      (fun k tab => InB tab r c ∧ (∀ a, a ≤ l1 → tabGet tab (a + 1) 1 = some (a : Int)) ∧
        ∀ b, b < k → tabGet tab 1 (b + 1) = some (b : Int))
      (l2 + 1) 0 tab ⟨hB, hF, by intro b hb; omega⟩
      (by
        intro k t _ hk ⟨hBt, hFt, hCt⟩
        obtain ⟨t1, ht1, hB1, hG1⟩ := tabSet_spec (i := 0) (j := k + 1) limit hBt (by omega) (by omega)
        obtain ⟨t2, ht2, hB2, hG2⟩ :=
          tabSet_spec (i := 1) (j := k + 1) (k : Int) hB1 (by omega) (by omega)
        refine ⟨t2, ?_, hB2, ?_, ?_⟩
        · simp only [ht1, Option.bind_eq_bind, Option.some_bind, ht2]
        · intro a ha
          rw [hG2, hG1]
          have h2 : ¬ (a + 1 = 0 ∧ 1 = k + 1) := by omega
          rw [if_neg h2]
          by_cases hak : a + 1 = 1 ∧ 1 = k + 1
          · rw [if_pos hak]
            have e : a = k := by omega
            rw [e]
          · rw [if_neg hak]
            exact hFt a ha
        · intro b hb
          rw [hG2, hG1]
          have h2 : ¬ ((1 : Nat) = 0 ∧ b + 1 = k + 1) := by omega
          rw [if_neg h2]
          by_cases hbk : b = k
          · subst hbk
            simp
          · have h1 : ¬ ((1 : Nat) = 1 ∧ b + 1 = k + 1) := by omega
            rw [if_neg h1]
            exact hCt b (by omega))
  refine ⟨tab', hrun, hP.1, hP.2.1, ?_⟩
  intro b hb
  exact hP.2.2 b (by omega)

/-- The function `distance` never faults and returns the value of the reference
recurrence at the two lengths. -/
theorem distance_eq_D (s1 s2 : Str) :
    distance s1 s2 = some (D s1 s2 s1.length s2.length) := by
  unfold distance
  by_cases h1 : s1.length = 0
  · simp [h1, D_zero_left]
  · by_cases h2 : s2.length = 0
    · simp [h1, h2, D_zero_right]
    · simp only [h1, h2, if_false]
      have hB0 : InB (mkTable (s1.length + 2) (s2.length + 2)) (s1.length + 2) (s2.length + 2) := by
        intro i j hi hj
        exact ⟨0, by rw [tabGet_mkTable]; simp [hi, hj]⟩
      obtain ⟨t0, ht0, hB1, -⟩ :=
        tabSet_spec (i := 0) (j := 0) ((s1.length : Int) + (s2.length : Int)) hB0
          (by omega) (by omega)
      obtain ⟨t1, ht1, hB2, hF2⟩ :=
        initRows_spec s1.length (s1.length + 2) (s2.length + 2)
          ((s1.length : Int) + (s2.length : Int)) t0 (by omega) (by omega) hB1
      obtain ⟨t2, ht2, hB3, hF3, hC3⟩ :=
        initCols_spec s1.length s2.length (s1.length + 2) (s2.length + 2)
          ((s1.length : Int) + (s2.length : Int)) t1 (by omega) (by omega) hB2 hF2
      have hfill : Filled s1 s2 1 1 t2 := by
        refine ⟨hB3, ?_⟩
        intro a b ha hb hc
        by_cases ha0 : a = 0
        · subst ha0
          rw [D_zero_left]
          exact hC3 b hb
        · have hb0 : b = 0 := by omega
          subst hb0
          rw [D_zero_right]
          exact hF3 a ha
      obtain ⟨t3, ht3, hfin⟩ := mainLoop_spec s1 s2 t2 hfill
      simp only [ht0, ht1, ht2, ht3, Option.bind_eq_bind, Option.some_bind]
      exact hfin.2 s1.length s2.length (Nat.le_refl _) (Nat.le_refl _) (by omega)

/-! ## Properties of the recurrence -/

/-- Induction along the recursive calls of `D`. -/
theorem D_ind (P : Nat → Nat → Prop) (h0 : ∀ j, P 0 j) (h1 : ∀ i, P (i + 1) 0)
    (hs : ∀ i j, P i (j + 1) → P (i + 1) j → P i j → P (i - 1) (j - 1) → P (i + 1) (j + 1)) :
    ∀ i j, P i j := by
  have key : ∀ n i j, i + j = n → P i j := by
    intro n
    induction n using Nat.strong_induction_on with
    | _ n ih =>
      intro i j hij
      cases i with
      | zero => exact h0 j
      | succ i =>
        cases j with
        | zero => exact h1 i
        | succ j =>
          exact hs i j (ih (i + (j + 1)) (by omega) _ _ rfl) (ih (i + 1 + j) (by omega) _ _ rfl)
            (ih (i + j) (by omega) _ _ rfl) (ih (i - 1 + (j - 1)) (by omega) _ _ rfl)
  intro i j
  exact key (i + j) i j rfl

theorem cost_nonneg (s1 s2 : Str) (i j : Nat) : 0 ≤ cost s1 s2 i j := by
  unfold cost
  split <;> omega

theorem cost_le_one (s1 s2 : Str) (i j : Nat) : cost s1 s2 i j ≤ 1 := by
  unfold cost
  split <;> omega

theorem D_nonneg (s1 s2 : Str) : ∀ i j, 0 ≤ D s1 s2 i j := by
  apply D_ind
  · intro j
    rw [D_zero_left]
    omega
  · intro i
    rw [D_zero_right]
    omega
  · intro i j h1 h2 h3 h4
    have hc := cost_nonneg s1 s2 i j
    rw [D_succ_succ]
    unfold base
    split <;> omega

theorem D_le_sub (s1 s2 : Str) (i j : Nat) :
    D s1 s2 (i + 1) (j + 1) ≤ D s1 s2 i j + cost s1 s2 i j := by
  rw [D_succ_succ]
  unfold base
  split <;> omega

theorem D_le_swap (s1 s2 : Str) (i j : Nat) (h : Swapped s1 s2 i j) :
    D s1 s2 (i + 1) (j + 1) ≤ D s1 s2 (i - 1) (j - 1) + cost s1 s2 i j := by
  rw [D_succ_succ, if_pos h]
  omega

theorem cost_comm (s1 s2 : Str) (i j : Nat) : cost s1 s2 i j = cost s2 s1 j i := by
  unfold cost
  by_cases h : s1[i]? = s2[j]?
  · rw [if_pos h, if_pos h.symm]
  · rw [if_neg h, if_neg (fun e => h e.symm)]

theorem Swapped_comm (s1 s2 : Str) (i j : Nat) : Swapped s1 s2 i j ↔ Swapped s2 s1 j i := by
  unfold Swapped
  constructor
  · rintro ⟨a, b, c, d⟩
    exact ⟨b, a, d.symm, c.symm⟩
  · rintro ⟨a, b, c, d⟩
    exact ⟨b, a, d.symm, c.symm⟩

theorem D_comm (s1 s2 : Str) : ∀ i j, D s1 s2 i j = D s2 s1 j i := by
  apply D_ind
  · intro j
    rw [D_zero_left, D_zero_right]
  · intro i
    rw [D_zero_left, D_zero_right]
  · intro i j h1 h2 h3 h4
    rw [D_succ_succ, D_succ_succ]
    have hb : base s1 s2 i j = base s2 s1 j i := by
      unfold base
      rw [h1, h2, h3, cost_comm s1 s2 i j]
      omega
    by_cases hsw : Swapped s1 s2 i j
    · rw [if_pos hsw, if_pos ((Swapped_comm s1 s2 i j).mp hsw), hb, h4, cost_comm s1 s2 i j]
    · rw [if_neg hsw, if_neg (fun e => hsw ((Swapped_comm s1 s2 i j).mpr e)), hb]

/-- Equal prefixes have distance zero. -/
theorem D_diag_zero (s1 s2 : Str) :
    ∀ i, (∀ m, m < i → s1[m]? = s2[m]?) → D s1 s2 i i = 0 := by
  intro i
  induction i with
  | zero =>
    intro _
    rw [D_zero_left]
    rfl
  | succ i ih =>
    intro h
    have h0 := ih (fun m hm => h m (by omega))
    have hle := D_le_sub s1 s2 i i
    have hge := D_nonneg s1 s2 (i + 1) (i + 1)
    have hc : cost s1 s2 i i = 0 := by
      unfold cost
      rw [if_pos (h i (by omega))]
    omega

/-- Distance zero forces equal prefixes. -/
theorem D_eq_zero (s1 s2 : Str) :
    ∀ i j, D s1 s2 i j = 0 → i = j ∧ ∀ m, m < i → s1[m]? = s2[m]? := by
  apply D_ind
  · intro j h
    rw [D_zero_left] at h
    refine ⟨by omega, ?_⟩
    intro m hm
    omega
  · intro i h
    rw [D_zero_right] at h
    omega
  · intro i j h1 h2 h3 h4 h
    have n1 := D_nonneg s1 s2 i (j + 1)
    have n2 := D_nonneg s1 s2 (i + 1) j
    have n3 := D_nonneg s1 s2 i j
    have n4 := D_nonneg s1 s2 (i - 1) (j - 1)
    have hc0 := cost_nonneg s1 s2 i j
    rw [D_succ_succ] at h
    have hcost : cost s1 s2 i j = 0 → s1[i]? = s2[j]? := by
      unfold cost
      split
      · intro _
        assumption
      · intro e
        omega
    by_cases hsw : Swapped s1 s2 i j
    · rw [if_pos hsw] at h
      unfold base at h
      by_cases hd : D s1 s2 i j + cost s1 s2 i j = 0
      · obtain ⟨e, hp⟩ := h3 (by omega)
        subst e
        refine ⟨rfl, ?_⟩
        intro m hm
        by_cases hmi : m = i
        · subst hmi
          exact hcost (by omega)
        · exact hp m (by omega)
      · have hd' : D s1 s2 (i - 1) (j - 1) + cost s1 s2 i j = 0 := by omega
        obtain ⟨e, hp⟩ := h4 (by omega)
        obtain ⟨p1, p2, p3, p4⟩ := hsw
        have eij : i = j := by omega
        subst eij
        have hci := hcost (by omega)
        refine ⟨rfl, ?_⟩
        intro m hm
        by_cases hmi : m = i
        · subst hmi
          exact hci
        · by_cases hmi' : m = i - 1
          · subst hmi'
            rw [p4, ← hci, p3]
          · exact hp m (by omega)
    · rw [if_neg hsw] at h
      unfold base at h
      obtain ⟨e, hp⟩ := h3 (by omega)
      subst e
      refine ⟨rfl, ?_⟩
      intro m hm
      by_cases hmi : m = i
      · subst hmi
        exact hcost (by omega)
      · exact hp m (by omega)

/-! ## Adjacent exchange -/

theorem swapAt_length (s : Str) (k : Nat) : (swapAt s k).length = s.length := by
  unfold swapAt
  split <;> simp

theorem swapAt_getElem? (s : Str) (k : Nat) (hk : k + 1 < s.length) (m : Nat) :
    (swapAt s k)[m]? =
      if m = k then s[k + 1]? else if m = k + 1 then s[k]? else s[m]? := by
  have h0 : s[k]? = some s[k] := List.getElem?_eq_getElem (by omega)
  have h1 : s[k + 1]? = some s[k + 1] := List.getElem?_eq_getElem hk
  unfold swapAt
  rw [h0, h1]
  simp only
  by_cases e1 : m = k
  · subst e1
    have hlt : m < s.length := by omega
    rw [if_pos rfl, List.getElem?_set_ne (by omega), List.getElem?_set]
    simp [hlt]
  · by_cases e2 : m = k + 1
    · subst e2
      rw [if_neg e1, if_pos rfl, List.getElem?_set]
      simp [hk]
    · rw [if_neg e1, if_neg e2, List.getElem?_set_ne (fun e => e2 e.symm),
        List.getElem?_set_ne (fun e => e1 e.symm)]

/-- Exchanging two different adjacent symbols gives distance exactly one in the
recurrence. -/
theorem D_swapAt (s : Str) (k : Nat) (hk : k + 1 < s.length) (hne : s[k]? ≠ s[k + 1]?) :
    D s (swapAt s k) s.length s.length = 1 := by
  have hget := swapAt_getElem? s k hk
  -- the common prefix
  have hpre : D s (swapAt s k) k k = 0 := by
    apply D_diag_zero
    intro m hm
    rw [hget, if_neg (by omega), if_neg (by omega)]
  -- the exchanged pair
  have hsw : Swapped s (swapAt s k) (k + 1) (k + 1) := by
    refine ⟨by omega, by omega, ?_, ?_⟩
    · rw [hget]
      simp
    · rw [hget]
      simp
  have hcost : cost s (swapAt s k) (k + 1) (k + 1) ≤ 1 := cost_le_one _ _ _ _
  have hpair : D s (swapAt s k) (k + 2) (k + 2) ≤ 1 := by
    have h : D s (swapAt s k) (k + 2) (k + 2) ≤
        D s (swapAt s k) k k + cost s (swapAt s k) (k + 1) (k + 1) :=
      D_le_swap s (swapAt s k) (k + 1) (k + 1) hsw
    omega
  -- the common suffix
  have hsuf : ∀ n, D s (swapAt s k) (k + 2 + n) (k + 2 + n) ≤ 1 := by
    intro n
    induction n with
    | zero => exact hpair
    | succ n ih =>
      have hle := D_le_sub s (swapAt s k) (k + 2 + n) (k + 2 + n)
      have hg : (swapAt s k)[k + 2 + n]? = s[k + 2 + n]? := by
        rw [hget, if_neg (by omega), if_neg (by omega)]
      have hc : cost s (swapAt s k) (k + 2 + n) (k + 2 + n) = 0 := by
        unfold cost
        rw [hg, if_pos rfl]
      have e : k + 2 + (n + 1) = k + 2 + n + 1 := by omega
      rw [e]
      omega
  have hupper : D s (swapAt s k) s.length s.length ≤ 1 := by
    have := hsuf (s.length - (k + 2))
    have e : k + 2 + (s.length - (k + 2)) = s.length := by omega
    rw [e] at this
    exact this
  have hlower : D s (swapAt s k) s.length s.length ≠ 0 := by
    intro h0
    obtain ⟨-, hp⟩ := D_eq_zero s (swapAt s k) s.length s.length h0
    have := hp k (by omega)
    rw [hget, if_pos rfl] at this
    exact hne this
  have hnn := D_nonneg s (swapAt s k) s.length s.length
  omega

/-! ## Theorems about `distance` -/

/-- Claim C1: for all byte strings `s1` and `s2`, `distance s1 s2` returns the value
`D (len s1) (len s2)` of the table-free reference recurrence with the restricted
adjacent-transposition term. -/
theorem distance_refines_recurrence (s1 s2 : Str) :
    distance s1 s2 = some (D s1 s2 s1.length s2.length) :=
  distance_eq_D s1 s2

/-- Claim C2, evaluated at the input where the code departs from it: for `"ca"` and
`"abc"` the function `distance` returns 3, while two edit operations (transpose
`c` and `a`, then insert `b`) transform `"ca"` into `"abc"`; so the returned value is
not the Damerau-Levenshtein distance. -/
theorem distance_ca_abc_not_minimal :
    distance [99, 97] [97, 98, 99] = some 3 ∧
      EditSeq 2 [99, 97] [97, 98, 99] ∧
      ¬ IsDamerauLevenshtein [99, 97] [97, 98, 99] 3 := by
  have hseq : EditSeq 2 [99, 97] [97, 98, 99] :=
    EditSeq.step (EditStep.transpose [] [] 99 97)
      (EditSeq.step (EditStep.insert [97] [99] 98) (EditSeq.done _))
  refine ⟨by decide, hseq, ?_⟩
  intro h
  have := h.2 2 hseq
  omega

/-- Claim C3: symmetry.  For all strings `s1` and `s2`, `distance s1 s2` and
`distance s2 s1` return the same value. -/
theorem distance_symm (s1 s2 : Str) :
    ∃ d : Int, distance s1 s2 = some d ∧ distance s2 s1 = some d :=
  ⟨D s1 s2 s1.length s2.length, distance_eq_D s1 s2, by
    rw [distance_eq_D s2 s1, D_comm s1 s2]⟩

/-- Claim C4: for every string `s`, `distance s s` returns 0. -/
theorem distance_self (s : Str) : distance s s = some 0 := by
  rw [distance_eq_D, D_diag_zero s s s.length (fun _ _ => rfl)]

/-- Claim C5: for every string `s`, `distance "" s` and `distance s ""` return the number
of bytes of `s`; in particular `distance "" ""` returns 0. -/
theorem distance_empty (s : Str) :
    distance [] s = some (s.length : Int) ∧ distance s [] = some (s.length : Int) ∧
      distance [] [] = some 0 := by
  refine ⟨?_, ?_, ?_⟩
  · simp [distance]
  · unfold distance
    by_cases h : s.length = 0
    · simp [h]
    · simp [h]
  · simp [distance]

/-- Claim C6: a single adjacent transposition costs 1.  For every string `s` and index
`k` with `k + 1 < len s` and `s[k] ≠ s[k+1]`, the distance from `s` to `s` with the
symbols at `k` and `k + 1` exchanged is 1. -/
theorem distance_swapAt (s : Str) (k : Nat) (hk : k + 1 < s.length)
    (hne : s[k]? ≠ s[k + 1]?) : distance s (swapAt s k) = some 1 := by
  rw [distance_eq_D, swapAt_length, D_swapAt s k hk hne]

/-- Claim C6 at `"ab"`, `k = 0`: the exchanged string is `"ba"` and
`distance "ab" "ba"` is 1. -/
theorem distance_swapAt_witness :
    swapAt [97, 98] 0 = [98, 97] ∧ distance [97, 98] (swapAt [97, 98] 0) = some 1 :=
  ⟨by decide, distance_swapAt [97, 98] 0 (by decide) (by decide)⟩

/-- Claim C7: `distance` does not satisfy the triangle inequality.  With `a = "ca"`,
`b = "ac"`, `c = "abc"`: `distance a c = 3`, `distance a b = 1`, `distance b c = 1`. -/
theorem distance_triangle_fails :
    ∃ (a b c : Str) (dac dab dbc : Int),
      distance a c = some dac ∧ distance a b = some dab ∧ distance b c = some dbc ∧
        dac > dab + dbc :=
  ⟨[99, 97], [97, 99], [97, 98, 99], 3, 1, 1, by decide, by decide, by decide, by decide⟩

/-! ## The bounded minima structure -/

theorem stableInsert_length (x : Entry) (l : List Entry) :
    (stableInsert x l).length = l.length + 1 := by
  induction l with
  | nil => rfl
  | cons y l ih =>
    unfold stableInsert
    split
    · simp
    · simp [ih]

/-- The scan of `updateMinimum` finds the place where `stableInsert` puts the entry. -/
theorem scan_spec (x : Entry) (l : List Entry) :
    ∀ j : Nat,
      (scan x.1 (l.map (fun e => e.1)) j = -1 ∧ (∀ e ∈ l, ¬ e.1 > x.1) ∧
          stableInsert x l = l ++ [x]) ∨
        ∃ i, i < l.length ∧ scan x.1 (l.map (fun e => e.1)) j = ((j + i : Nat) : Int) ∧
          stableInsert x l = l.take i ++ ([x] ++ l.drop i) := by
  induction l with
  | nil =>
    intro j
    left
    simp [scan, stableInsert]
  | cons y l ih =>
    intro j
    by_cases hy : y.1 > x.1
    · right
      refine ⟨0, by simp, ?_, ?_⟩
      · simp [scan, hy]
      · simp [stableInsert, hy]
    · rcases ih (j + 1) with ⟨h1, h2, h3⟩ | ⟨i, hi, h1, h2⟩
      · left
        refine ⟨?_, ?_, ?_⟩
        · simp only [List.map_cons, scan, if_neg hy]
          exact h1
        · intro e he
          rcases List.mem_cons.mp he with rfl | he
          · exact hy
          · exact h2 e he
        · simp [stableInsert, hy, h3]
      · right
        refine ⟨i + 1, by simp [hi], ?_, ?_⟩
        · simp only [List.map_cons, scan, if_neg hy]
          rw [h1]
          congr 1
          omega
        · simp [stableInsert, hy, h2]

theorem insertAt_map {α : Type} (f : Entry → α) (l : List Entry) (i : Nat) (x : Entry)
    (hi : i ≤ l.length) :
    insertAt (l.map f) i (f x) = some ((l.take i ++ ([x] ++ l.drop i)).map f) := by
  unfold insertAt
  simp [hi, List.map_take, List.map_drop]

theorem trim_map {α : Type} (f : Entry → α) (l : List Entry) (h : l.length ≤ MIN_SET_SIZE + 1) :
    trim (l.map f) = (l.take MIN_SET_SIZE).map f := by
  unfold trim
  simp only [List.length_map]
  unfold MIN_SET_SIZE at *
  by_cases h3 : l.length > 3
  · have e : l.length - 1 = 3 := by omega
    rw [if_pos h3, e, List.map_take]
  · rw [if_neg h3, List.take_of_length_le (by omega)]

/-- One call of `updateMinimum` on the slices of at most `MIN_SET_SIZE` entries inserts
the new entry stably and keeps the first `MIN_SET_SIZE` entries. -/
theorem updateMinimum_slices (l : List Entry) (x : Entry) (hl : l.length ≤ MIN_SET_SIZE) :
    updateMinimum (slices l).1 x.1 (slices l).2.1 x.2.1 (slices l).2.2 x.2.2 =
      some (slices ((stableInsert x l).take MIN_SET_SIZE)) := by
  unfold updateMinimum slices
  simp only [List.length_map]
  by_cases h0 : l.length = 0
  · have : l = [] := List.length_eq_zero.mp h0
    subst this
    simp [stableInsert, MIN_SET_SIZE]
  · rw [if_neg h0]
    rcases scan_spec x l 0 with ⟨h1, -, h3⟩ | ⟨i, hi, h1, h2⟩
    · rw [h1, h3]
      by_cases hlt : l.length < MIN_SET_SIZE
      · rw [if_pos ⟨rfl, hlt⟩]
        rw [List.take_of_length_le (by simp; unfold MIN_SET_SIZE at *; omega)]
        simp
      · rw [if_neg (fun h => hlt h.2), if_neg (by decide)]
        have e : l.length = MIN_SET_SIZE := by omega
        rw [List.take_append_of_le_length (by omega), List.take_of_length_le (by omega)]
    · rw [h1, h2]
      have hne : ¬ (((0 + i : Nat) : Int) = -1 ∧ l.length < MIN_SET_SIZE) := by
        intro h
        omega
      have hgt : ((0 + i : Nat) : Int) > -1 := by omega
      have hlen : (l.take i ++ ([x] ++ l.drop i)).length ≤ MIN_SET_SIZE + 1 := by
        rw [← h2, stableInsert_length]
        omega
      rw [if_neg hne, if_pos hgt]
      simp only [Int.toNat_ofNat, Nat.zero_add]
      have ex : x = (x.1, x.2.1, x.2.2) := rfl
      rw [insertAt_map (fun e => e.1) l i x (by omega),
        insertAt_map (fun e => e.2.1) l i x (by omega),
        insertAt_map (fun e => e.2.2) l i x (by omega)]
      simp only [Option.bind_eq_bind, Option.some_bind]
      rw [trim_map _ _ hlen, trim_map _ _ hlen, trim_map _ _ hlen]

theorem take_cons_take {α : Type} (y : α) (l : List α) (n : Nat) :
    (y :: l.take n).take n = (y :: l).take n := by
  cases n with
  | zero => rfl
  | succ m =>
    simp only [List.take_succ_cons, List.take_take]
    rw [Nat.min_eq_left (by omega)]

/-- Dropping the entries after the first `n` before an insertion does not change the
first `n` entries after it. -/
theorem take_stableInsert_take (x : Entry) (l : List Entry) :
    ∀ n : Nat, (stableInsert x (l.take n)).take n = (stableInsert x l).take n := by
  induction l with
  | nil =>
    intro n
    simp
  | cons y l ih =>
    intro n
    cases n with
    | zero => simp
    | succ n =>
      by_cases hy : y.1 > x.1
      · simp only [List.take_succ_cons, stableInsert, if_pos hy]
        rw [take_cons_take]
      · simp only [List.take_succ_cons, stableInsert, if_neg hy]
        rw [ih n]

theorem stableInsert_orderedInsert (x y : Entry) (l : List Entry) :
    stableInsert y (List.orderedInsert byDistance x l) =
      List.orderedInsert byDistance x (stableInsert y l) := by
  induction l with
  | nil =>
    by_cases h : x.1 ≤ y.1
    · have h' : ¬ x.1 > y.1 := by omega
      simp [stableInsert, List.orderedInsert, byDistance, h, h']
    · have h' : x.1 > y.1 := by omega
      simp [stableInsert, List.orderedInsert, byDistance, h, h']
  | cons b l ih =>
    by_cases hxb : x.1 ≤ b.1
    · by_cases hby : b.1 > y.1
      · by_cases hxy : x.1 ≤ y.1
        · have h' : ¬ x.1 > y.1 := by omega
          simp [stableInsert, List.orderedInsert, byDistance, hxb, hby, hxy, h']
        · have h' : x.1 > y.1 := by omega
          simp [stableInsert, List.orderedInsert, byDistance, hxb, hby, hxy, h']
      · have h' : ¬ x.1 > y.1 := by omega
        simp [stableInsert, List.orderedInsert, byDistance, hxb, hby, h']
    · by_cases hby : b.1 > y.1
      · have h' : ¬ x.1 ≤ y.1 := by omega
        simp [stableInsert, List.orderedInsert, byDistance, hxb, hby, h']
      · simp only [stableInsert, List.orderedInsert, byDistance, hxb, hby, if_false]
        rw [← ih]

theorem foldl_stableInsert_orderedInsert (x : Entry) (xs : List Entry) :
    ∀ l : List Entry,
      xs.foldl (fun l y => stableInsert y l) (List.orderedInsert byDistance x l) =
        List.orderedInsert byDistance x (xs.foldl (fun l y => stableInsert y l) l) := by
  induction xs with
  | nil =>
    intro l
    rfl
  | cons y ys ih =>
    intro l
    simp only [List.foldl_cons]
    rw [stableInsert_orderedInsert, ih]

/-- Inserting the stream from the left, each entry behind the entries of smaller or
equal distance, is insertion sort by distance. -/
theorem foldl_stableInsert (xs : List Entry) :
    xs.foldl (fun l y => stableInsert y l) [] = xs.insertionSort byDistance := by
  induction xs with
  | nil => rfl
  | cons x xs ih =>
    simp only [List.foldl_cons, List.insertionSort]
    rw [← ih, ← foldl_stableInsert_orderedInsert]
    rfl

theorem foldl_take_stableInsert (xs : List Entry) :
    ∀ l : List Entry,
      xs.foldl (fun l y => (stableInsert y l).take MIN_SET_SIZE) (l.take MIN_SET_SIZE) =
        (xs.foldl (fun l y => stableInsert y l) l).take MIN_SET_SIZE := by
  induction xs with
  | nil =>
    intro l
    rfl
  | cons y ys ih =>
    intro l
    simp only [List.foldl_cons]
    rw [take_stableInsert_take, ih]

theorem foldlM_updateMinimum (xs : List Entry) :
    ∀ l : List Entry, l.length ≤ MIN_SET_SIZE →
      xs.foldlM (fun st x => updateMinimum st.1 x.1 st.2.1 x.2.1 st.2.2 x.2.2) (slices l) =
        some (slices (xs.foldl (fun l y => (stableInsert y l).take MIN_SET_SIZE) l)) := by
  induction xs with
  | nil =>
    intro l _
    rfl
  | cons y ys ih =>
    intro l hl
    simp only [List.foldlM_cons, List.foldl_cons]
    rw [updateMinimum_slices l y hl]
    simp only [Option.bind_eq_bind, Option.some_bind]
    exact ih _ (by rw [List.length_take]; omega)

/-- The stream of inserts leaves the first `MIN_SET_SIZE` entries of the stream sorted
by insertion sort on the distance. -/
theorem insertAll_eq (xs : List Entry) :
    insertAll xs = some (slices ((xs.insertionSort byDistance).take MIN_SET_SIZE)) := by
  have h := foldlM_updateMinimum xs [] (by simp)
  have h2 := foldl_take_stableInsert xs []
  rw [foldl_stableInsert] at h2
  unfold insertAll
  rw [← h2]
  exact h

theorem filter_orderedInsert (v : Int) (x : Entry) (l : List Entry) :
    (List.orderedInsert byDistance x l).filter (fun e => decide (e.1 = v)) =
      (x :: l).filter (fun e => decide (e.1 = v)) := by
  induction l with
  | nil => rfl
  | cons b l ih =>
    by_cases hxb : byDistance x b
    · simp only [List.orderedInsert, if_pos hxb]
    · simp only [List.orderedInsert, if_neg hxb]
      have hlt : b.1 < x.1 := by
        unfold byDistance at hxb
        omega
      rw [List.filter_cons, ih]
      by_cases hb : b.1 = v
      · have hx : ¬ x.1 = v := by omega
        simp [List.filter_cons, hb, hx]
      · simp [List.filter_cons, hb]

/-- Insertion sort by distance is a stable sort. -/
theorem insertionSort_stable (xs : List Entry) :
    IsStableSortOf xs (xs.insertionSort byDistance) := by
  refine ⟨List.perm_insertionSort _ _, List.sorted_insertionSort _ _, ?_⟩
  intro v
  induction xs with
  | nil => rfl
  | cons x xs ih =>
    rw [List.insertionSort, filter_orderedInsert, List.filter_cons, List.filter_cons, ih]

theorem stableInsert_perm (x : Entry) (l : List Entry) : (stableInsert x l).Perm (x :: l) := by
  induction l with
  | nil => exact List.Perm.refl _
  | cons y l ih =>
    unfold stableInsert
    split
    · exact List.Perm.refl _
    · exact (ih.cons y).trans (List.Perm.swap x y l)

theorem stableInsert_sorted (x : Entry) (l : List Entry) (h : l.Pairwise byDistance) :
    (stableInsert x l).Pairwise byDistance := by
  induction l with
  | nil => simp [stableInsert]
  | cons y l ih =>
    rw [List.pairwise_cons] at h
    unfold stableInsert
    split
    · rename_i hy
      refine List.pairwise_cons.mpr ⟨?_, List.pairwise_cons.mpr h⟩
      intro z hz
      rcases List.mem_cons.mp hz with rfl | hz
      · unfold byDistance
        omega
      · have := h.1 z hz
        unfold byDistance at *
        omega
    · rename_i hy
      refine List.pairwise_cons.mpr ⟨?_, ih h.2⟩
      intro z hz
      rcases List.mem_cons.mp ((stableInsert_perm x l).mem_iff.mp hz) with rfl | hz
      · unfold byDistance
        omega
      · exact h.1 z hz

/-- Three slices of equal length are the slices of a list of entries. -/
theorem exists_slices :
    ∀ (minima : List Int) (sv : List Str) (lnums : List Int),
      sv.length = minima.length → lnums.length = minima.length →
      ∃ l : List Entry, slices l = (minima, sv, lnums) ∧ l.length = minima.length := by
  intro minima
  induction minima with
  | nil =>
    intro sv lnums h1 h2
    refine ⟨[], ?_, rfl⟩
    rw [List.length_nil, List.length_eq_zero] at h1 h2
    subst h1
    subst h2
    rfl
  | cons m ms ih =>
    intro sv lnums h1 h2
    cases sv with
    | nil => simp at h1
    | cons t ts =>
      cases lnums with
      | nil => simp at h2
      | cons n ns =>
        obtain ⟨l, hl, hlen⟩ := ih ts ns (by simpa using h1) (by simpa using h2)
        refine ⟨(m, t, n) :: l, ?_, by simp [hlen]⟩
        unfold slices at hl ⊢
        simp only [Prod.mk.injEq] at hl
        simp [hl.1, hl.2.1, hl.2.2]

theorem MinimaInv_slices (l : List Entry) (hlen : l.length ≤ MIN_SET_SIZE)
    (hs : l.Pairwise byDistance) : MinimaInv (slices l) := by
  unfold MinimaInv slices
  refine ⟨by simpa using hlen, ?_, by simp, by simp⟩
  unfold List.Sorted
  rw [List.pairwise_map]
  exact hs

/-- Two lists sorted by distance with the same entries of every distance, in the same
order, are equal: the stable sort of a stream is unique. -/
theorem stableSort_unique :
    ∀ (l1 l2 : List Entry), l1.Pairwise byDistance → l2.Pairwise byDistance →
      (∀ v : Int, l1.filter (fun e => decide (e.1 = v)) = l2.filter (fun e => decide (e.1 = v))) →
      l1 = l2 := by
  intro l1
  induction l1 with
  | nil =>
    intro l2 _ _ h
    cases l2 with
    | nil => rfl
    | cons b l2 =>
      have := h b.1
      simp [List.filter_cons] at this
  | cons a l1 ih =>
    intro l2 h1 h2 h
    cases l2 with
    | nil =>
      have := h a.1
      simp [List.filter_cons] at this
    | cons b l2 =>
      rw [List.pairwise_cons] at h1 h2
      have hab : a.1 = b.1 := by
        by_contra hne
        rcases Int.lt_or_gt_of_ne hne with hlt | hgt
        · have hv := h a.1
          have hb : ¬ b.1 = a.1 := by omega
          have hnil : l2.filter (fun e => decide (e.1 = a.1)) = [] := by
            rw [List.filter_eq_nil_iff]
            intro z hz
            have := h2.1 z hz
            unfold byDistance at this
            simp only [decide_eq_true_eq]
            omega
          simp [List.filter_cons, hb, hnil] at hv
        · have hv := h b.1
          have ha : ¬ a.1 = b.1 := by omega
          have hnil : l1.filter (fun e => decide (e.1 = b.1)) = [] := by
            rw [List.filter_eq_nil_iff]
            intro z hz
            have := h1.1 z hz
            unfold byDistance at this
            simp only [decide_eq_true_eq]
            omega
          simp [List.filter_cons, ha, hnil] at hv
      have heq : a = b := by
        have hv := h a.1
        simp only [List.filter_cons, decide_True, if_true, hab.symm] at hv
        exact (List.cons.inj hv).1
      subst heq
      congr 1
      apply ih l2 h1.2 h2.2
      intro v
      have hv := h v
      by_cases hav : a.1 = v
      · simp only [List.filter_cons, hav, decide_True, if_true] at hv
        exact (List.cons.inj hv).2
      · simpa [List.filter_cons, hav] using hv

theorem IsStableSortOf.eq_insertionSort {xs l : List Entry} (h : IsStableSortOf xs l) :
    l = xs.insertionSort byDistance := by
  obtain ⟨-, hs, hf⟩ := h
  obtain ⟨-, hs', hf'⟩ := insertionSort_stable xs
  apply stableSort_unique l _ hs hs'
  intro v
  rw [hf v, hf' v]

theorem scan_none (d : Int) (minima : List Int) (h : ∀ el ∈ minima, ¬ el > d) :
    ∀ j : Nat, scan d minima j = -1 := by
  induction minima with
  | nil =>
    intro j
    rfl
  | cons el rest ih =>
    intro j
    have h1 : ¬ el > d := h el (List.mem_cons_self _ _)
    simp only [scan, if_neg h1]
    exact ih (fun e he => h e (List.mem_cons_of_mem _ he)) (j + 1)

/-! ## Theorems about `updateMinimum` -/

/-- Claim C8: the K smallest distances are retained.  For every stream of inserts,
applied by `updateMinimum` to three empty slices, and every ascending rearrangement
`sorted` of the distances of the stream, the resulting `minima` is the list of the
first `min 3 n` elements of `sorted`. -/
theorem insertAll_minima (xs : List Entry) (sorted : List Int)
    (hperm : sorted.Perm (xs.map (fun e => e.1))) (hsorted : sorted.Sorted (· ≤ ·)) :
    ∃ sv lnums, insertAll xs = some (sorted.take 3, sv, lnums) ∧
      (sorted.take 3).length = Nat.min 3 xs.length := by
  have hmap : (xs.insertionSort byDistance).map (fun e => e.1) =
      (xs.map (fun e => e.1)).insertionSort (· ≤ ·) := by
    apply List.map_insertionSort
    intro a _ b _
    rfl
  have hs : sorted = (xs.insertionSort byDistance).map (fun e => e.1) := by
    rw [hmap]
    exact List.eq_of_perm_of_sorted
      (hperm.trans (List.perm_insertionSort _ _).symm) hsorted (List.sorted_insertionSort _ _)
  refine ⟨((xs.insertionSort byDistance).take 3).map (fun e => e.2.1),
    ((xs.insertionSort byDistance).take 3).map (fun e => e.2.2), ?_, ?_⟩
  · rw [insertAll_eq, hs]
    unfold slices MIN_SET_SIZE
    rw [List.map_take]
  · rw [List.length_take, hperm.length_eq, List.length_map]

/-- Claim C8 at the stream of distances 5, 2, 8, 1, 9, 3: the retained distances are
1, 2, 3. -/
theorem insertAll_minima_witness :
    ∃ sv lnums,
      insertAll [(5, [], 0), (2, [], 1), (8, [], 2), (1, [], 3), (9, [], 4), (3, [], 5)] =
          some (List.take 3 [1, 2, 3, 5, 8, 9], sv, lnums) ∧
        (List.take 3 [1, 2, 3, 5, 8, 9]).length = Nat.min 3 6 :=
  insertAll_minima [(5, [], 0), (2, [], 1), (8, [], 2), (1, [], 3), (9, [], 4), (3, [], 5)]
    [1, 2, 3, 5, 8, 9] (by decide) (by decide)

/-- Claim C9: first seen wins.  For every stream of inserts applied by `updateMinimum`
to three empty slices, the retained triples are the first `min 3 n` entries of the
stream stably sorted by distance; and when the structure holds three entries, none
of distance strictly greater than `d`, `updateMinimum` returns the three slices
unchanged. -/
theorem updateMinimum_first_seen_wins :
    (∀ xs l : List Entry, IsStableSortOf xs l →
        insertAll xs = some (slices (l.take 3)) ∧ (l.take 3).length = Nat.min 3 xs.length) ∧
      ∀ (minima : List Int) (sv : List Str) (lnums : List Int) (d : Int) (s1 : Str) (ln : Int),
        minima.length = 3 → (∀ el ∈ minima, ¬ el > d) →
        updateMinimum minima d sv s1 lnums ln = some (minima, sv, lnums) := by
  constructor
  · intro xs l h
    have e := h.eq_insertionSort
    subst e
    refine ⟨insertAll_eq xs, ?_⟩
    rw [List.length_take, List.length_insertionSort]
  · intro minima sv lnums d s1 ln hlen hnone
    unfold updateMinimum
    have h0 : ¬ minima.length = 0 := by omega
    have h1 : ¬ (scan d minima 0 = -1 ∧ minima.length < MIN_SET_SIZE) := by
      unfold MIN_SET_SIZE
      omega
    have h2 : ¬ scan d minima 0 > -1 := by
      rw [scan_none d minima hnone 0]
      decide
    simp only [if_neg h0, if_neg h1, if_neg h2]

/-- Claim C9 at a stream with ties: of the three entries of distance 2 only the first
seen is retained, behind the two entries of distance 1; and a further entry of
distance 2 leaves the full structure unchanged. -/
theorem updateMinimum_first_seen_wins_witness :
    (insertAll [(2, [97], 0), (1, [98], 1), (2, [99], 2), (2, [100], 3), (1, [101], 4)] =
          some (slices (List.take 3
            [(1, [98], 1), (1, [101], 4), (2, [97], 0), (2, [99], 2), (2, [100], 3)])) ∧
        (List.take 3
            [((1 : Int), ([98] : Str), (1 : Int)), (1, [101], 4), (2, [97], 0), (2, [99], 2),
              (2, [100], 3)]).length =
          Nat.min 3
            [((2 : Int), ([97] : Str), (0 : Int)), (1, [98], 1), (2, [99], 2), (2, [100], 3),
              (1, [101], 4)].length) ∧
      updateMinimum [1, 1, 2] 2 [[98], [101], [97]] [99] [1, 4, 0] 2 =
        some ([1, 1, 2], [[98], [101], [97]], [1, 4, 0]) :=
  ⟨updateMinimum_first_seen_wins.1
      [(2, [97], 0), (1, [98], 1), (2, [99], 2), (2, [100], 3), (1, [101], 4)]
      [(1, [98], 1), (1, [101], 4), (2, [97], 0), (2, [99], 2), (2, [100], 3)]
      (insertionSort_stable
        [(2, [97], 0), (1, [98], 1), (2, [99], 2), (2, [100], 3), (1, [101], 4)]),
    updateMinimum_first_seen_wins.2 [1, 1, 2] [[98], [101], [97]] [1, 4, 0] 2 [99] 2
      (by decide) (by decide)⟩

/-- On the lists of elements, one call of `updateMinimum` keeps the invariant of the
bounded minima structure. -/
theorem updateMinimum_preserves (minima : List Int) (sv : List Str) (lnums : List Int)
    (d : Int) (s1 : Str) (ln : Int) (hinv : MinimaInv (minima, sv, lnums)) :
    ∃ r, updateMinimum minima d sv s1 lnums ln = some r ∧ MinimaInv r := by
  obtain ⟨hlen, hsorted, h1, h2⟩ := hinv
  obtain ⟨l, hl, hll⟩ := exists_slices minima sv lnums h1 h2
  have hl3 : l.length ≤ MIN_SET_SIZE := by
    rw [hll]
    exact hlen
  have hpw : l.Pairwise byDistance := by
    have e : minima = l.map (fun e => e.1) := by
      have := congrArg (fun r => r.1) hl
      exact this.symm
    rw [e] at hsorted
    unfold List.Sorted at hsorted
    rw [List.pairwise_map] at hsorted
    exact hsorted
  have hupd := updateMinimum_slices l (d, s1, ln) hl3
  rw [hl] at hupd
  refine ⟨_, hupd, ?_⟩
  apply MinimaInv_slices
  · rw [List.length_take]
    omega
  · exact (stableInsert_sorted _ _ hpw).take

/-- On the lists of elements, the invariant holds after any stream of inserts. -/
theorem insertAll_preserves (xs : List Entry) : ∃ r, insertAll xs = some r ∧ MinimaInv r := by
  refine ⟨_, insertAll_eq xs, ?_⟩
  apply MinimaInv_slices
  · rw [List.length_take]
    omega
  · exact (List.sorted_insertionSort byDistance xs).take

/-! ## Bounds on the recurrence -/

theorem D_le_max (s1 s2 : Str) : ∀ i j : Nat, D s1 s2 i j ≤ Max.max (i : Int) (j : Int) := by
  apply D_ind
  · intro j
    rw [D_zero_left]
    omega
  · intro i
    rw [D_zero_right]
    omega
  · intro i j _ _ h3 _
    have hle := D_le_sub s1 s2 i j
    have hc := cost_le_one s1 s2 i j
    push_cast
    omega

theorem D_ge_diff (s1 s2 : Str) :
    ∀ i j : Nat, (i : Int) - (j : Int) ≤ D s1 s2 i j ∧ (j : Int) - (i : Int) ≤ D s1 s2 i j := by
  apply D_ind
  · intro j
    rw [D_zero_left]
    omega
  · intro i
    rw [D_zero_right]
    omega
  · intro i j h1 h2 h3 h4
    have hc := cost_nonneg s1 s2 i j
    rw [D_succ_succ]
    unfold base
    by_cases hsw : Swapped s1 s2 i j
    · obtain ⟨p1, p2, -, -⟩ := hsw
      have e1 : ((i - 1 : Nat) : Int) = (i : Int) - 1 := by omega
      have e2 : ((j - 1 : Nat) : Int) = (j : Int) - 1 := by omega
      rw [e1, e2] at h4
      split <;> (push_cast; omega)
    · rw [if_neg hsw]
      push_cast
      omega

/-! ## Further theorems about `distance` -/

/-- Claim C15: `distance` is total and free of faults.  For all byte strings, empty ones
included, no table or string index inside `distance` is out of range (an index out
of range makes the model return `none`), the function returns, and the result is at
least 0. -/
theorem distance_total (s1 s2 : Str) : ∃ d : Int, distance s1 s2 = some d ∧ 0 ≤ d :=
  ⟨D s1 s2 s1.length s2.length, distance_eq_D s1 s2, D_nonneg s1 s2 _ _⟩

/-- Claim C17: `distance "kitten" "sitting"` is 3. -/
theorem distance_kitten_sitting :
    distance [107, 105, 116, 116, 101, 110] [115, 105, 116, 116, 105, 110, 103] = some 3 := by
  decide

/-- Claim C18: length bounds.  For all strings the distance lies between the absolute
difference of the lengths and the larger length; so it is at most the sum of the
lengths, and the exact ratio `distance / (len s1 + len s2)` lies in `[0, 1]` when one
of the strings is not empty. -/
theorem distance_length_bounds (s1 s2 : Str) :
    ∃ d : Int, distance s1 s2 = some d ∧
      |(s1.length : Int) - (s2.length : Int)| ≤ d ∧
      d ≤ Max.max (s1.length : Int) (s2.length : Int) ∧
      d ≤ (s1.length : Int) + (s2.length : Int) ∧
      (0 < s1.length + s2.length →
        0 ≤ (d : ℚ) / ((s1.length : ℚ) + (s2.length : ℚ)) ∧
          (d : ℚ) / ((s1.length : ℚ) + (s2.length : ℚ)) ≤ 1) := by
  have hmax := D_le_max s1 s2 s1.length s2.length
  have hdiff := D_ge_diff s1 s2 s1.length s2.length
  have hnn := D_nonneg s1 s2 s1.length s2.length
  have hsum : D s1 s2 s1.length s2.length ≤ (s1.length : Int) + (s2.length : Int) := by omega
  refine ⟨D s1 s2 s1.length s2.length, distance_eq_D s1 s2, ?_, hmax, hsum, ?_⟩
  · exact abs_le.mpr ⟨by omega, hdiff.1⟩
  · intro hpos
    have hden : (0 : ℚ) < (s1.length : ℚ) + (s2.length : ℚ) := by
      exact_mod_cast hpos
    have hnum : (0 : ℚ) ≤ (D s1 s2 s1.length s2.length : ℚ) := by
      exact_mod_cast hnn
    have hle : (D s1 s2 s1.length s2.length : ℚ) ≤ (s1.length : ℚ) + (s2.length : ℚ) := by
      exact_mod_cast hsum
    exact ⟨div_nonneg hnum hden.le, (div_le_one hden).mpr hle⟩

/-- Claim C18 at `"ab"` and `"abcd"`: the distance is 2, between `|2 - 4|` and 4, and the
ratio `2 / 6` lies in `[0, 1]`. -/
theorem distance_length_bounds_witness :
    ∃ d : Int, distance [97, 98] [97, 98, 99, 100] = some d ∧
      |(([97, 98] : Str).length : Int) - (([97, 98, 99, 100] : Str).length : Int)| ≤ d ∧
      d ≤ Max.max (([97, 98] : Str).length : Int) (([97, 98, 99, 100] : Str).length : Int) ∧
      d ≤ (([97, 98] : Str).length : Int) + (([97, 98, 99, 100] : Str).length : Int) ∧
      (0 < ([97, 98] : Str).length + ([97, 98, 99, 100] : Str).length →
        0 ≤ (d : ℚ) / ((([97, 98] : Str).length : ℚ) + (([97, 98, 99, 100] : Str).length : ℚ)) ∧
          (d : ℚ) / ((([97, 98] : Str).length : ℚ) + (([97, 98, 99, 100] : Str).length : ℚ))
            ≤ 1) :=
  distance_length_bounds [97, 98] [97, 98, 99, 100]

/-- Claim C19: identity of indiscernibles.  For all strings, `distance s1 s2` is 0 if and
only if the two strings are equal byte for byte. -/
theorem distance_eq_zero_iff (s1 s2 : Str) : distance s1 s2 = some 0 ↔ s1 = s2 := by
  constructor
  · intro h
    rw [distance_eq_D] at h
    have h0 : D s1 s2 s1.length s2.length = 0 := Option.some.inj h
    obtain ⟨hlen, hp⟩ := D_eq_zero s1 s2 s1.length s2.length h0
    apply List.ext_getElem?
    intro m
    by_cases hm : m < s1.length
    · exact hp m hm
    · rw [List.getElem?_eq_none (by omega), List.getElem?_eq_none (by omega)]
  · intro h
    subst h
    rw [distance_eq_D, D_diag_zero s1 s1 s1.length (fun _ _ => rfl)]

/-! ## Slice expressions on lists -/

theorem insertAt_eq {α : Type} (xs : List α) (i : Nat) (x : α) (hi : i ≤ xs.length) :
    insertAt xs i x = some (xs.take i ++ x :: xs.drop i) := by
  unfold insertAt
  simp [hi]

/-! ## The all-pairs comparator -/

theorem getD_of_getElem? (v : List Str) (j : Nat) (s : Str) (h : v[j]? = some s) :
    v.getD j [] = s := by
  simp [h]

theorem pairLoop_eq (v : List Str) (i : Nat) (s1 : Str) :
    ∀ n j : Nat, j + n ≤ v.length →
      pairLoop v i s1 n j =
        some ((List.range' j n).map (fun j => pairResult i j s1 (v.getD j []))) := by
  intro n
  induction n with
  | zero =>
    intro j _
    rfl
  | succ n ih =>
    intro j hj
    have hget : v[j]? = some v[j] := List.getElem?_eq_getElem (by omega)
    have hD := getD_of_getElem? v j v[j] hget
    rw [List.range'_succ, List.map_cons, hD]
    unfold pairLoop
    simp only [hget, distance_eq_D, ih (j + 1) (by omega), Option.bind_eq_bind,
      Option.some_bind]
    rfl

theorem allPairs_succ (v : List Str) (i n : Nat) :
    allPairs v i (n + 1) = pairsOf v i ++ allPairs v (i + 1) n := by
  unfold allPairs
  rw [List.range'_succ, List.flatMap_cons]

theorem rowLoop_eq (v : List Str) :
    ∀ n i : Nat, (n = 0 ∨ i + n < v.length) → rowLoop v n i = some (allPairs v i n) := by
  intro n
  induction n with
  | zero =>
    intro i _
    rfl
  | succ n ih =>
    intro i h
    have hi : i + (n + 1) < v.length := by omega
    have hget : v[i]? = some v[i] := List.getElem?_eq_getElem (by omega)
    have hD := getD_of_getElem? v i v[i] hget
    rw [allPairs_succ]
    unfold rowLoop
    simp only [hget, pairLoop_eq v i v[i] (v.length - (i + 1)) (i + 1) (by omega),
      ih (i + 1) (by omega), Option.bind_eq_bind, Option.some_bind]
    unfold pairsOf
    rw [hD]

theorem similarity_eq (v : List Str) :
    similarity v = some (allPairs v 0 (v.length - 1)) := by
  unfold similarity
  apply rowLoop_eq
  omega

theorem mem_allPairs (v : List Str) (i n : Nat) (r : Result) :
    r ∈ allPairs v i n ↔
      ∃ a b : Nat, i ≤ a ∧ a < i + n ∧ a < b ∧ b < v.length ∧
        r = pairResult a b (v.getD a []) (v.getD b []) := by
  unfold allPairs pairsOf
  simp only [List.mem_flatMap, List.mem_map, List.mem_range'_1]
  constructor
  · rintro ⟨a, ⟨ha1, ha2⟩, b, ⟨hb1, hb2⟩, rfl⟩
    exact ⟨a, b, ha1, ha2, by omega, by omega, rfl⟩
  · rintro ⟨a, b, ha1, ha2, hab, hb, rfl⟩
    exact ⟨a, ⟨ha1, ha2⟩, b, ⟨by omega, by omega⟩, rfl⟩

theorem length_pairsOf (v : List Str) (i : Nat) : (pairsOf v i).length = v.length - (i + 1) := by
  unfold pairsOf
  rw [List.length_map, List.length_range']

theorem length_allPairs (v : List Str) :
    ∀ n i : Nat, i + n + 1 = v.length → (allPairs v i n).length * 2 = n * (n + 1) := by
  intro n
  induction n with
  | zero =>
    intro i _
    rfl
  | succ n ih =>
    intro i h
    rw [allPairs_succ, List.length_append, length_pairsOf, Nat.add_mul, ih (i + 1) (by omega)]
    have e : v.length - (i + 1) = n + 1 := by omega
    rw [e]
    ring

theorem sorted_allPairs (v : List Str) (i n : Nat) :
    ((allPairs v i n).map positions).Pairwise lexLt := by
  unfold allPairs
  rw [List.map_flatMap, List.pairwise_flatMap]
  constructor
  · intro a _
    unfold pairsOf
    rw [List.map_map, List.pairwise_map]
    apply List.Pairwise.imp _ (List.pairwise_lt_range' (a + 1) (v.length - (a + 1)))
    intro b c hbc
    right
    refine ⟨rfl, ?_⟩
    show (b : Int) + 1 < (c : Int) + 1
    omega
  · apply List.Pairwise.imp _ (List.pairwise_lt_range' i n)
    intro a b hab x hx y hy
    unfold pairsOf at hx hy
    rw [List.map_map] at hx hy
    obtain ⟨c, -, rfl⟩ := List.mem_map.mp hx
    obtain ⟨e, -, rfl⟩ := List.mem_map.mp hy
    left
    show (a : Int) + 1 < (b : Int) + 1
    omega

/-- Claim C13: all-pairs enumeration.  For every input of `n` strings (`n = 0` and
`n = 1` included) `similarity` prints `n * (n - 1) / 2` results; their pairs of
positions are in strictly ascending lexicographic order and are exactly the pairs
`(i, j)` with `1 ≤ i < j ≤ n`; and a result with positions `(i, j)` carries the strings
`v[i-1]`, `v[j-1]` and their distance. -/
theorem similarity_all_pairs (v : List Str) :
    ∃ out, similarity v = some out ∧
      out.length = v.length * (v.length - 1) / 2 ∧
      (out.map positions).Sorted lexLt ∧
      (∀ i j : Int, (i, j) ∈ out.map positions ↔ 1 ≤ i ∧ i < j ∧ j ≤ (v.length : Int)) ∧
      ∀ r ∈ out, v[(r.pos1 - 1).toNat]? = some r.str1 ∧
        v[(r.pos2 - 1).toNat]? = some r.str2 ∧ distance r.str1 r.str2 = some r.d := by
  refine ⟨allPairs v 0 (v.length - 1), similarity_eq v, ?_, sorted_allPairs v 0 _, ?_, ?_⟩
  · by_cases h0 : v.length = 0
    · rw [h0]
      rfl
    · have h2 := length_allPairs v (v.length - 1) 0 (by omega)
      have e : v.length - 1 + 1 = v.length := by omega
      rw [e] at h2
      rw [Nat.mul_comm v.length, ← h2, Nat.mul_div_cancel _ (by decide)]
  · intro i j
    rw [List.mem_map]
    constructor
    · rintro ⟨r, hr, hpos⟩
      obtain ⟨a, b, -, ha, hab, hb, rfl⟩ := (mem_allPairs v 0 _ r).mp hr
      unfold positions pairResult at hpos
      simp only [Prod.mk.injEq] at hpos
      omega
    · rintro ⟨h1, h2, h3⟩
      refine ⟨pairResult (i - 1).toNat (j - 1).toNat (v.getD (i - 1).toNat [])
        (v.getD (j - 1).toNat []), ?_, ?_⟩
      · rw [mem_allPairs]
        exact ⟨(i - 1).toNat, (j - 1).toNat, by omega, by omega, by omega, by omega, rfl⟩
      · unfold positions pairResult
        simp only [Prod.mk.injEq]
        omega
  · intro r hr
    obtain ⟨a, b, -, ha, hab, hb, rfl⟩ := (mem_allPairs v 0 _ r).mp hr
    have hga : v[a]? = some v[a] := List.getElem?_eq_getElem (by omega)
    have hgb : v[b]? = some v[b] := List.getElem?_eq_getElem (by omega)
    rw [getD_of_getElem? v a _ hga, getD_of_getElem? v b _ hgb]
    unfold pairResult
    simp only [Int.add_sub_cancel, Int.toNat_ofNat]
    exact ⟨hga, hgb, distance_eq_D _ _⟩

/-- Claim C13 at `["a", "b", "c"]`: three results, for the pairs `(1, 2)`, `(1, 3)`,
`(2, 3)` in this order. -/
theorem similarity_all_pairs_witness :
    (∃ out, similarity [[97], [98], [99]] = some out ∧
      out.length = ([[97], [98], [99]] : List Str).length *
        (([[97], [98], [99]] : List Str).length - 1) / 2 ∧
      (out.map positions).Sorted lexLt ∧
      (∀ i j : Int, (i, j) ∈ out.map positions ↔
        1 ≤ i ∧ i < j ∧ j ≤ (([[97], [98], [99]] : List Str).length : Int)) ∧
      ∀ r ∈ out, ([[97], [98], [99]] : List Str)[(r.pos1 - 1).toNat]? = some r.str1 ∧
        ([[97], [98], [99]] : List Str)[(r.pos2 - 1).toNat]? = some r.str2 ∧
        distance r.str1 r.str2 = some r.d) ∧
      (similarity [[97], [98], [99]]).map (fun out => out.map positions) =
        some [(1, 2), (1, 3), (2, 3)] :=
  ⟨similarity_all_pairs [[97], [98], [99]], by decide⟩

/-! ## The reference comparator -/

theorem scanRefs_eq (s2 : Str) (v1 : List Str) :
    ∀ (j : Nat) (st : List Int × List Str × List Int),
      scanRefs s2 j v1 st =
        (refStream s2 j v1).foldlM
          (fun st x => updateMinimum st.1 x.1 st.2.1 x.2.1 st.2.2 x.2.2) st := by
  induction v1 with
  | nil =>
    intro j st
    rfl
  | cons s1 rest ih =>
    intro j st
    unfold scanRefs refStream
    simp only [distance_eq_D, Option.bind_eq_bind, Option.some_bind, List.foldlM_cons]
    cases h : updateMinimum st.1 (D s1 s2 s1.length s2.length) st.2.1 s1 st.2.2 (j : Int) with
    | none => rfl
    | some st' =>
      simp only [Option.some_bind]
      exact ih (j + 1) st'

theorem scanRefs_retained (v1 : List Str) (s2 : Str) :
    scanRefs s2 0 v1 ([], [], []) = some (slices (retained v1 s2)) := by
  rw [scanRefs_eq]
  exact insertAll_eq (refStream s2 0 v1)

theorem printMinima_eq (i : Nat) (s2 : Str) :
    ∀ (suf pre : List Entry),
      printMinima i s2 (slices (pre ++ suf)).2.1 (slices (pre ++ suf)).2.2 pre.length
          (slices suf).1 =
        some (suf.map (fun e => Line.result (entryResult i s2 e))) := by
  intro suf
  induction suf with
  | nil =>
    intro pre
    rfl
  | cons e rest ih =>
    intro pre
    have h := ih (pre ++ [e])
    have eapp : pre ++ [e] ++ rest = pre ++ e :: rest := by simp
    rw [eapp, List.length_append, List.length_singleton] at h
    have hget : (pre ++ e :: rest)[pre.length]? = some e := by
      rw [List.getElem?_append_right (Nat.le_refl _)]
      simp
    have hsv : ((slices (pre ++ e :: rest)).2.1)[pre.length]? = some e.2.1 := by
      unfold slices
      simp only
      rw [List.getElem?_map, hget]
      rfl
    have hln : ((slices (pre ++ e :: rest)).2.2)[pre.length]? = some e.2.2 := by
      unfold slices
      simp only
      rw [List.getElem?_map, hget]
      rfl
    have hmin : (slices (e :: rest)).1 = e.1 :: (slices rest).1 := rfl
    rw [hmin]
    unfold printMinima
    simp only [hsv, hln, h, Option.bind_eq_bind, Option.some_bind]
    rfl

theorem render_cons (b : List Result) (bs : List (List Result)) :
    render (b :: bs) = b.map Line.result ++ Line.marker :: render bs := by
  unfold render
  rw [List.flatMap_cons]
  simp

theorem refLoop_eq (v1 : List Str) (v2 : List Str) :
    ∀ i : Nat, refLoop v1 i v2 = some (render (refBlocks v1 i v2)) := by
  induction v2 with
  | nil =>
    intro i
    rfl
  | cons s2 rest ih =>
    intro i
    have hp := printMinima_eq i s2 (retained v1 s2) []
    simp only [List.nil_append, List.length_nil] at hp
    unfold refLoop refBlocks
    simp only [scanRefs_retained, hp, ih (i + 1), Option.bind_eq_bind, Option.some_bind]
    rw [render_cons]
    unfold refBlock
    rw [List.map_map]
    rfl

theorem refSimilarity_eq (v1 v2 : List Str) :
    refSimilarity v1 v2 = some (render (refBlocks v1 0 v2)) :=
  refLoop_eq v1 v2 0

theorem length_refStream (s2 : Str) (v1 : List Str) :
    ∀ j : Nat, (refStream s2 j v1).length = v1.length := by
  induction v1 with
  | nil =>
    intro j
    rfl
  | cons s1 rest ih =>
    intro j
    simp [refStream, ih (j + 1)]

theorem mem_refStream (s2 : Str) (v1 : List Str) (e : Entry) :
    ∀ j : Nat, e ∈ refStream s2 j v1 ↔
      ∃ (k : Nat) (s1 : Str), v1[k]? = some s1 ∧
        e = (D s1 s2 s1.length s2.length, s1, ((j + k : Nat) : Int)) := by
  induction v1 with
  | nil =>
    intro j
    simp [refStream]
  | cons s rest ih =>
    intro j
    unfold refStream
    rw [List.mem_cons, ih (j + 1)]
    constructor
    · rintro (rfl | ⟨k, s1, hk, rfl⟩)
      · exact ⟨0, s, by simp, rfl⟩
      · refine ⟨k + 1, s1, by simpa using hk, ?_⟩
        have e : j + 1 + k = j + (k + 1) := by omega
        rw [e]
    · rintro ⟨k, s1, hk, rfl⟩
      cases k with
      | zero =>
        left
        simp only [List.getElem?_cons_zero, Option.some.injEq] at hk
        subst hk
        rfl
      | succ k =>
        right
        refine ⟨k, s1, by simpa using hk, ?_⟩
        have e : j + 1 + k = j + (k + 1) := by omega
        rw [e]

theorem retained_subset (v1 : List Str) (s2 : Str) (e : Entry) (h : e ∈ retained v1 s2) :
    e ∈ refStream s2 0 v1 :=
  (List.perm_insertionSort byDistance _).mem_iff.mp (List.mem_of_mem_take h)

theorem length_retained (v1 : List Str) (s2 : Str) :
    (retained v1 s2).length = Nat.min 3 v1.length := by
  unfold retained MIN_SET_SIZE
  rw [List.length_take, List.length_insertionSort, length_refStream]

theorem sorted_retained (v1 : List Str) (s2 : Str) : (retained v1 s2).Pairwise byDistance :=
  (List.sorted_insertionSort byDistance _).take

theorem length_refBlocks (v1 v2 : List Str) :
    ∀ i : Nat, (refBlocks v1 i v2).length = v2.length := by
  induction v2 with
  | nil =>
    intro i
    rfl
  | cons s2 rest ih =>
    intro i
    simp [refBlocks, ih (i + 1)]

theorem getElem?_refBlocks (v1 v2 : List Str) :
    ∀ i p : Nat, (refBlocks v1 i v2)[p]? = (v2[p]?).map (refBlock v1 (i + p)) := by
  induction v2 with
  | nil =>
    intro i p
    simp [refBlocks]
  | cons s2 rest ih =>
    intro i p
    unfold refBlocks
    cases p with
    | zero => simp
    | succ p =>
      simp only [List.getElem?_cons_succ]
      rw [ih (i + 1) p]
      have e : i + 1 + p = i + (p + 1) := by omega
      rw [e]

theorem mem_refBlocks (v1 v2 : List Str) (i : Nat) (b : List Result)
    (h : b ∈ refBlocks v1 i v2) :
    ∃ (p : Nat) (t : Str), v2[p]? = some t ∧ b = refBlock v1 (i + p) t := by
  obtain ⟨p, hp⟩ := List.mem_iff_getElem?.mp h
  rw [getElem?_refBlocks] at hp
  cases ht : v2[p]? with
  | none => simp [ht] at hp
  | some t =>
    rw [ht] at hp
    exact ⟨p, t, ht, (Option.some.inj hp).symm⟩

theorem mem_render (blocks : List (List Result)) (r : Result) :
    Line.result r ∈ render blocks ↔ ∃ b ∈ blocks, r ∈ b := by
  unfold render
  simp only [List.mem_flatMap, List.mem_append, List.mem_map, List.mem_singleton]
  constructor
  · rintro ⟨b, hb, h⟩
    rcases h with ⟨r', hr', e⟩ | h
    · injection e with e
      subst e
      exact ⟨b, hb, hr'⟩
    · exact absurd h (by simp)
  · rintro ⟨b, hb, hr⟩
    exact ⟨b, hb, Or.inl ⟨r, hr, rfl⟩⟩

/-- A result line of the output of `refSimilarity` comes from an entry retained for the
test string at the index given by its first position. -/
theorem mem_refSimilarity (v1 v2 : List Str) (r : Result)
    (h : Line.result r ∈ render (refBlocks v1 0 v2)) :
    ∃ (p : Nat) (t : Str) (e : Entry), v2[p]? = some t ∧ e ∈ retained v1 t ∧
      r = entryResult p t e := by
  obtain ⟨b, hb, hr⟩ := (mem_render _ r).mp h
  obtain ⟨p, t, ht, rfl⟩ := mem_refBlocks v1 v2 0 b hb
  unfold refBlock at hr
  obtain ⟨e, he, rfl⟩ := List.mem_map.mp hr
  rw [Nat.zero_add]
  exact ⟨p, t, e, ht, he, rfl⟩

/-- The result line of an entry retained for the test string at index `p` is in the
output of `refSimilarity`. -/
theorem mem_refSimilarity_of_retained (v1 v2 : List Str) (p : Nat) (t : Str) (e : Entry)
    (ht : v2[p]? = some t) (he : e ∈ retained v1 t) :
    Line.result (entryResult p t e) ∈ render (refBlocks v1 0 v2) := by
  rw [mem_render]
  refine ⟨refBlock v1 p t, ?_, List.mem_map.mpr ⟨e, he, rfl⟩⟩
  apply List.mem_iff_getElem?.mpr
  refine ⟨p, ?_⟩
  rw [getElem?_refBlocks, ht, Nat.zero_add]
  rfl

/-! ## Theorems about `refSimilarity` -/

/-- Claim C12: the block structure of reference mode.  The output of `refSimilarity` is
one block per test string, in the order of the test strings, each followed by one
line `----`; the block of the test string at index `p` has `min 3 |R|` result lines,
in ascending order of distance, each with the test position `p + 1` and that test
string. -/
theorem refSimilarity_blocks (v1 v2 : List Str) :
    ∃ blocks : List (List Result),
      refSimilarity v1 v2 = some (render blocks) ∧ blocks.length = v2.length ∧
      ∀ (p : Nat) (t : Str) (b : List Result), v2[p]? = some t → blocks[p]? = some b →
        b.length = Nat.min 3 v1.length ∧ (b.map (fun r => r.d)).Sorted (· ≤ ·) ∧
        ∀ r ∈ b, r.pos1 = (p : Int) + 1 ∧ r.str1 = t := by
  refine ⟨refBlocks v1 0 v2, refSimilarity_eq v1 v2, length_refBlocks v1 v2 0, ?_⟩
  intro p t b ht hb
  rw [getElem?_refBlocks, ht, Nat.zero_add] at hb
  have hb' : refBlock v1 p t = b := Option.some.inj hb
  subst hb'
  unfold refBlock
  refine ⟨by rw [List.length_map, length_retained], ?_, ?_⟩
  · unfold List.Sorted
    rw [List.map_map, List.pairwise_map]
    exact sorted_retained v1 t
  · intro r hr
    obtain ⟨e, -, rfl⟩ := List.mem_map.mp hr
    exact ⟨rfl, rfl⟩

/-- Claim C12 at the reference strings `"cat"`, `"cart"`, `"car"` and the test string
`"care"`: one block with the three reference strings paired with `"care"`, in
ascending order of distance, then the line `----`. -/
theorem refSimilarity_blocks_witness :
    (∃ blocks : List (List Result),
      refSimilarity [[99, 97, 116], [99, 97, 114, 116], [99, 97, 114]] [[99, 97, 114, 101]] =
        some (render blocks) ∧
      blocks.length = ([[99, 97, 114, 101]] : List Str).length ∧
      ∀ (p : Nat) (t : Str) (b : List Result),
        ([[99, 97, 114, 101]] : List Str)[p]? = some t → blocks[p]? = some b →
        b.length =
          Nat.min 3 ([[99, 97, 116], [99, 97, 114, 116], [99, 97, 114]] : List Str).length ∧
        (b.map (fun r => r.d)).Sorted (· ≤ ·) ∧
        ∀ r ∈ b, r.pos1 = (p : Int) + 1 ∧ r.str1 = t) ∧
      refSimilarity [[99, 97, 116], [99, 97, 114, 116], [99, 97, 114]] [[99, 97, 114, 101]] =
        some [
          Line.result { score := Score.ratio 1 8, d := 1, pos1 := 1, pos2 := 2,
                        str1 := [99, 97, 114, 101], str2 := [99, 97, 114, 116] },
          Line.result { score := Score.ratio 1 7, d := 1, pos1 := 1, pos2 := 3,
                        str1 := [99, 97, 114, 101], str2 := [99, 97, 114] },
          Line.result { score := Score.ratio 2 7, d := 2, pos1 := 1, pos2 := 1,
                        str1 := [99, 97, 114, 101], str2 := [99, 97, 116] },
          Line.marker] :=
  ⟨refSimilarity_blocks [[99, 97, 116], [99, 97, 114, 116], [99, 97, 114]] [[99, 97, 114, 101]],
    by decide⟩

/-- Claim C14: the fields of a result line of reference mode are consistent.  Every
result line printed by `refSimilarity` has a test position within `1 .. |T|` and a
reference position within `1 .. |R|`, carries the test string and the reference
string at these positions, and its distance is the distance between them. -/
theorem refSimilarity_fields (v1 v2 : List Str) :
    ∃ out, refSimilarity v1 v2 = some out ∧
      ∀ r, Line.result r ∈ out →
        1 ≤ r.pos1 ∧ r.pos1 ≤ (v2.length : Int) ∧ 1 ≤ r.pos2 ∧ r.pos2 ≤ (v1.length : Int) ∧
        v2[(r.pos1 - 1).toNat]? = some r.str1 ∧ v1[(r.pos2 - 1).toNat]? = some r.str2 ∧
        distance r.str1 r.str2 = some r.d := by
  refine ⟨_, refSimilarity_eq v1 v2, ?_⟩
  intro r hr
  obtain ⟨p, t, e, ht, he, rfl⟩ := mem_refSimilarity v1 v2 r hr
  obtain ⟨k, s1, hk, rfl⟩ := (mem_refStream t v1 e 0).mp (retained_subset v1 t e he)
  have hp : p < v2.length := (List.getElem?_eq_some_iff.mp ht).1
  have hk' : k < v1.length := (List.getElem?_eq_some_iff.mp hk).1
  unfold entryResult
  simp only [Nat.zero_add, Int.add_sub_cancel, Int.toNat_ofNat]
  refine ⟨by omega, by omega, by omega, by omega, ht, hk, ?_⟩
  rw [distance_eq_D, D_comm]

/-- Claim C14 at the reference strings `"cat"`, `"cart"`, `"car"` and the test string
`"care"`. -/
theorem refSimilarity_fields_witness :
    ∃ out,
      refSimilarity [[99, 97, 116], [99, 97, 114, 116], [99, 97, 114]] [[99, 97, 114, 101]] =
        some out ∧
      ∀ r, Line.result r ∈ out →
        1 ≤ r.pos1 ∧ r.pos1 ≤ (([[99, 97, 114, 101]] : List Str).length : Int) ∧ 1 ≤ r.pos2 ∧
        r.pos2 ≤ (([[99, 97, 116], [99, 97, 114, 116], [99, 97, 114]] : List Str).length : Int) ∧
        ([[99, 97, 114, 101]] : List Str)[(r.pos1 - 1).toNat]? = some r.str1 ∧
        ([[99, 97, 116], [99, 97, 114, 116], [99, 97, 114]] : List Str)[(r.pos2 - 1).toNat]? =
          some r.str2 ∧
        distance r.str1 r.str2 = some r.d :=
  refSimilarity_fields [[99, 97, 116], [99, 97, 114, 116], [99, 97, 114]] [[99, 97, 114, 101]]

/-! ## The score of two empty strings -/

theorem fdiv_of_ne_zero (d ml : Int) (h : ml ≠ 0) : fdiv d ml = Score.ratio d ml := by
  unfold fdiv
  rw [if_neg h]

/-- Claim C16 as stated fails: for two empty strings both comparators print the
distance 0 with the score `float64(0)/float64(0)`, which is NaN and not the quotient
0. -/
theorem score_empty_counterexample :
    similarity [[], []] =
        some [{ score := Score.nan, d := 0, pos1 := 1, pos2 := 2, str1 := [], str2 := [] }] ∧
      refSimilarity [[]] [[]] =
        some [Line.result { score := Score.nan, d := 0, pos1 := 1, pos2 := 1, str1 := [],
                            str2 := [] }, Line.marker] ∧
      ∀ ml : Int, Score.nan ≠ Score.ratio 0 ml :=
  ⟨by decide, by decide, fun _ h => Score.noConfusion h⟩

/-- Claim C16, amended: every result line of either comparator whose two strings are
empty has distance 0 and the score NaN of the division `float64(0)/float64(0)`; a
result line with a string that is not empty has the quotient of its distance by the
sum of the lengths as score. -/
theorem score_convention :
    (∀ (v : List Str) (out : List Result), similarity v = some out → ∀ r ∈ out,
        (r.str1 = [] → r.str2 = [] → r.d = 0 ∧ r.score = Score.nan) ∧
        (0 < r.str1.length + r.str2.length →
          r.score = Score.ratio r.d ((r.str1.length : Int) + (r.str2.length : Int)))) ∧
      ∀ (v1 v2 : List Str) (out : List Line), refSimilarity v1 v2 = some out →
        ∀ r, Line.result r ∈ out →
          (r.str1 = [] → r.str2 = [] → r.d = 0 ∧ r.score = Score.nan) ∧
          (0 < r.str1.length + r.str2.length →
            r.score = Score.ratio r.d ((r.str1.length : Int) + (r.str2.length : Int))) := by
  constructor
  · intro v out hout r hr
    rw [similarity_eq] at hout
    have e := Option.some.inj hout
    subst e
    obtain ⟨a, b, -, -, -, -, rfl⟩ := (mem_allPairs v 0 _ r).mp hr
    unfold pairResult
    simp only
    constructor
    · intro h1 h2
      rw [h1, h2]
      exact ⟨D_zero_left [] [] 0, by rw [List.length_nil, D_zero_left]; rfl⟩
    · intro hpos
      exact fdiv_of_ne_zero _ _ (by omega)
  · intro v1 v2 out hout r hr
    rw [refSimilarity_eq] at hout
    have e := Option.some.inj hout
    subst e
    obtain ⟨p, t, e, -, he, rfl⟩ := mem_refSimilarity v1 v2 r hr
    obtain ⟨k, s1, -, rfl⟩ := (mem_refStream t v1 e 0).mp (retained_subset v1 t e he)
    unfold entryResult
    simp only
    constructor
    · intro h1 h2
      rw [h1, h2]
      exact ⟨D_zero_left [] [] 0, by rw [List.length_nil, D_zero_left]; rfl⟩
    · intro hpos
      rw [fdiv_of_ne_zero _ _ (by omega), Int.add_comm]

/-- Claim C16, amended, at the inputs `["", ""]` of `similarity` and `[""]`, `[""]` of
`refSimilarity`, where the result line has distance 0 and score NaN, and at the input
`["", "a"]` of `similarity`, where the score is the quotient of 1 by 1. -/
theorem score_convention_witness :
    (∃ r, similarity [[], []] = some [r] ∧ r.d = 0 ∧ r.score = Score.nan) ∧
      (∃ r, refSimilarity [[]] [[]] = some [Line.result r, Line.marker] ∧ r.d = 0 ∧
        r.score = Score.nan) ∧
      ∃ r, similarity [[], [97]] = some [r] ∧
        r.score = Score.ratio r.d ((r.str1.length : Int) + (r.str2.length : Int)) :=
  ⟨⟨{ score := Score.nan, d := 0, pos1 := 1, pos2 := 2, str1 := [], str2 := [] }, by decide,
      (score_convention.1 [[], []]
        [{ score := Score.nan, d := 0, pos1 := 1, pos2 := 2, str1 := [], str2 := [] }]
        (by decide) _ (List.mem_singleton.mpr rfl)).1 rfl rfl⟩,
    ⟨{ score := Score.nan, d := 0, pos1 := 1, pos2 := 1, str1 := [], str2 := [] }, by decide,
      (score_convention.2 [[]] [[]]
        [Line.result { score := Score.nan, d := 0, pos1 := 1, pos2 := 1, str1 := [],
                       str2 := [] }, Line.marker]
        (by decide) _ (List.mem_cons_self _ _)).1 rfl rfl⟩,
    ⟨{ score := Score.ratio 1 1, d := 1, pos1 := 1, pos2 := 2, str1 := [], str2 := [97] },
      by decide,
      (score_convention.1 [[], [97]]
        [{ score := Score.ratio 1 1, d := 1, pos1 := 1, pos2 := 2, str1 := [], str2 := [97] }]
        (by decide) _ (List.mem_singleton.mpr rfl)).2 (by decide)⟩⟩

/-! ## Slices in memory -/

theorem length_view (m : Mem) (s : Slice) : (view m s).length = s.len := by
  simp [view]

theorem view_congr (m m' : Mem) (s : Slice)
    (h : ∀ a, s.off ≤ a → a < s.off + s.len → m'.cell a = m.cell a) :
    view m' s = view m s := by
  unfold view
  apply List.map_congr_left
  intro a ha
  rw [List.mem_range'_1] at ha
  exact h a ha.1 ha.2

theorem view_split (m : Mem) (off a b c c' c'' : Nat) :
    view m ⟨off, a + b, c⟩ = view m ⟨off, a, c'⟩ ++ view m ⟨off + a, b, c''⟩ := by
  unfold view
  simp only
  rw [← List.map_append, List.range'_append_1, Nat.add_comm b a]

theorem view_take (m : Mem) (s : Slice) (k c : Nat) (hk : k ≤ s.len) :
    view m ⟨s.off, k, c⟩ = (view m s).take k := by
  have h := view_split m s.off k (s.len - k) s.cap c 0
  have e : k + (s.len - k) = s.len := by omega
  rw [e] at h
  have hs : view m s = view m ⟨s.off, s.len, s.cap⟩ := rfl
  rw [hs, h, List.take_left' (length_view m ⟨s.off, k, c⟩)]

theorem view_drop (m : Mem) (s : Slice) (i c : Nat) (hi : i ≤ s.len) :
    view m ⟨s.off + i, s.len - i, c⟩ = (view m s).drop i := by
  have h := view_split m s.off i (s.len - i) s.cap 0 c
  have e : i + (s.len - i) = s.len := by omega
  rw [e] at h
  have hs : view m s = view m ⟨s.off, s.len, s.cap⟩ := rfl
  rw [hs, h, List.drop_left' (length_view m ⟨s.off, i, 0⟩)]

theorem view_store_self (m : Mem) (p c : Nat) (xs : List Int) :
    view (store m p xs) ⟨p, xs.length, c⟩ = xs := by
  apply List.ext_getElem
  · rw [length_view]
  · intro k h1 h2
    unfold view store
    simp only [List.getElem_map, List.getElem_range'_1]
    have hc : p ≤ p + k ∧ p + k < p + xs.length := ⟨by omega, by omega⟩
    rw [if_pos hc, Nat.add_sub_cancel_left, List.getD_eq_getElem?_getD,
      List.getElem?_eq_getElem h2]
    rfl

/-- The call `append(s, xs...)` on a well formed slice writes only in the storage of
`s` or in new storage, and the new slice holds the elements of `s` followed by `xs`. -/
theorem appendInts_writes (grow : Nat → Nat → Nat) (hg : ∀ o n, n ≤ grow o n) (m : Mem)
    (s : Slice) (xs : List Int) (hwf : s.WF m) :
    Writes m s (appendInts grow m s xs) ∧
      view (appendInts grow m s xs).1 (appendInts grow m s xs).2 = view m s ++ xs := by
  obtain ⟨hlen, hnext⟩ := hwf
  unfold appendInts
  by_cases hfit : s.len + xs.length ≤ s.cap
  · rw [if_pos hfit]
    refine ⟨⟨⟨hfit, hnext⟩, Nat.le_refl _, Or.inl ⟨rfl, rfl⟩, ?_⟩, ?_⟩
    · intro a _ hout
      unfold store
      simp only
      rw [if_neg]
      intro hin
      exact hout ⟨by omega, by omega⟩
    · simp only
      rw [view_split (store m (s.off + s.len) xs) s.off s.len xs.length s.cap s.cap 0,
        view_store_self]
      congr 1
      apply view_congr
      intro a _ ha2
      simp only at ha2
      unfold store
      simp only
      rw [if_neg]
      intro hin
      omega
  · rw [if_neg hfit]
    have hgrow := hg s.cap (s.len + xs.length)
    refine ⟨⟨⟨hgrow, Nat.le_refl _⟩, Nat.le_add_right _ _, Or.inr (Nat.le_refl _), ?_⟩, ?_⟩
    · intro a ha _
      show (store m m.next _).cell a = m.cell a
      unfold store
      simp only
      rw [if_neg]
      intro hin
      omega
    · simp only
      have hfull := view_store_self m m.next 0
        (view m s ++ xs ++ List.replicate (grow s.cap (s.len + xs.length) - (s.len + xs.length)) 0)
      have hl : s.len + xs.length ≤
          (view m s ++ xs ++
            List.replicate (grow s.cap (s.len + xs.length) - (s.len + xs.length)) 0).length := by
        simp only [List.length_append, length_view, List.length_replicate]
        omega
      have htake := view_take
        (store m m.next
          (view m s ++ xs ++ List.replicate (grow s.cap (s.len + xs.length) - (s.len + xs.length)) 0))
        ⟨m.next, _, 0⟩ (s.len + xs.length) (grow s.cap (s.len + xs.length)) hl
      rw [hfull] at htake
      have hl2 : (view m s ++ xs).length = s.len + xs.length := by
        rw [List.length_append, length_view]
      rw [List.take_left' hl2] at htake
      exact htake

/-- A slice apart from `s` is not touched by an operation on `s`, and is apart from
the result. -/
theorem writes_frame (m : Mem) (s t : Slice) (r : Mem × Slice) (hw : Writes m s r)
    (ht : t.WF m) (hap : s.Apart t) :
    view r.1 t = view m t ∧ t.WF r.1 ∧ r.2.Apart t := by
  obtain ⟨-, hnext, hreg, hframe⟩ := hw
  obtain ⟨ht1, ht2⟩ := ht
  unfold Slice.Apart at hap ⊢
  refine ⟨?_, ⟨ht1, by omega⟩, ?_⟩
  · apply view_congr
    intro a ha1 ha2
    apply hframe a (by omega)
    intro hin
    omega
  · rcases hreg with ⟨e1, e2⟩ | hfresh
    · rw [e1, e2]
      exact hap
    · right
      omega

/-- Two operations in sequence, on slices that are apart: the result of the first is
not touched by the second, and the two results are apart. -/
theorem writes_twice (m : Mem) (a b : Slice) (r1 r2 : Mem × Slice) (hw1 : Writes m a r1)
    (hb : b.WF m) (hap : a.Apart b) (hw2 : Writes r1.1 b r2) :
    view r2.1 r1.2 = view r1.1 r1.2 ∧ r1.2.WF r2.1 ∧ r1.2.Apart r2.2 := by
  obtain ⟨-, -, hap1⟩ := writes_frame m a b r1 hw1 hb hap
  have hap1' : b.Apart r1.2 := by
    unfold Slice.Apart at hap1 ⊢
    omega
  obtain ⟨hv, hwf, hap2⟩ := writes_frame r1.1 b r1.2 r2 hw2 hw1.1 hap1'
  refine ⟨hv, hwf, ?_⟩
  unfold Slice.Apart at hap2 ⊢
  omega

theorem insertIntAt_some (grow : Nat → Nat → Nat) (hg : ∀ o n, n ≤ grow o n) (m : Mem)
    (s : Slice) (i : Nat) (x : Int) (hwf : s.WF m) (hi : i ≤ s.len) :
    ∃ r, insertIntAt grow m s i x = some r ∧ Writes m s r ∧
      view r.1 r.2 = (view m s).take i ++ x :: (view m s).drop i := by
  have hcap : i ≤ s.cap := by
    have := hwf.1
    omega
  have hfront : (⟨s.off, i, s.cap⟩ : Slice).WF m := ⟨hcap, hwf.2⟩
  obtain ⟨hw, hv⟩ := appendInts_writes grow hg m ⟨s.off, i, s.cap⟩
    (x :: view m ⟨s.off + i, s.len - i, s.cap - i⟩) hfront
  refine ⟨_, ?_, hw, ?_⟩
  · unfold insertIntAt sliceTo sliceFrom
    simp only [if_pos hcap, if_pos hi, Option.bind_eq_bind, Option.some_bind]
  · rw [hv, view_take m s i s.cap hi, view_drop m s i (s.cap - i) hi]

theorem insertIntAt_none (grow : Nat → Nat → Nat) (m : Mem) (s : Slice) (i : Nat) (x : Int)
    (hi : ¬ i ≤ s.len) : insertIntAt grow m s i x = none := by
  unfold insertIntAt sliceTo sliceFrom
  by_cases hcap : i ≤ s.cap
  · simp [hcap, hi]
  · simp [hcap]

theorem trimSlice_writes (m : Mem) (s : Slice) (r : Mem × Slice) (hw : Writes m s r) :
    Writes m s (r.1, trimSlice r.2) ∧ view r.1 (trimSlice r.2) = trim (view r.1 r.2) := by
  obtain ⟨hwf, hnext, hreg, hframe⟩ := hw
  unfold trimSlice trim
  rw [length_view]
  by_cases hlong : r.2.len > MIN_SET_SIZE
  · rw [if_pos hlong, if_pos hlong]
    refine ⟨⟨⟨?_, hwf.2⟩, hnext, hreg, hframe⟩, ?_⟩
    · have := hwf.1
      show r.2.len - 1 ≤ r.2.cap
      omega
    · exact view_take r.1 r.2 (r.2.len - 1) r.2.cap (by omega)
  · rw [if_neg hlong, if_neg hlong]
    exact ⟨⟨hwf, hnext, hreg, hframe⟩, rfl⟩

theorem insertAt_none {α : Type} (xs : List α) (i : Nat) (x : α) (hi : ¬ i ≤ xs.length) :
    insertAt xs i x = none := by
  unfold insertAt
  rw [if_neg hi]

theorem appendInts_both (grow : Nat → Nat → Nat) (hg : ∀ o n, n ≤ grow o n) (m : Mem)
    (minima lnums : Slice) (d ln : Int) (sv : List Str) (h1 : minima.WF m) (h2 : lnums.WF m)
    (hap : minima.Apart lnums) :
    readBack ((appendInts grow (appendInts grow m minima [d]).1 lnums [ln]).1,
        (appendInts grow m minima [d]).2, sv,
        (appendInts grow (appendInts grow m minima [d]).1 lnums [ln]).2) =
      (view m minima ++ [d], sv, view m lnums ++ [ln]) ∧
    (appendInts grow m minima [d]).2.WF
      (appendInts grow (appendInts grow m minima [d]).1 lnums [ln]).1 ∧
    (appendInts grow (appendInts grow m minima [d]).1 lnums [ln]).2.WF
      (appendInts grow (appendInts grow m minima [d]).1 lnums [ln]).1 ∧
    (appendInts grow m minima [d]).2.Apart
      (appendInts grow (appendInts grow m minima [d]).1 lnums [ln]).2 := by
  obtain ⟨hw1, hv1⟩ := appendInts_writes grow hg m minima [d] h1
  obtain ⟨hvb, hb, -⟩ := writes_frame m minima lnums _ hw1 h2 hap
  obtain ⟨hw2, hv2⟩ := appendInts_writes grow hg (appendInts grow m minima [d]).1 lnums [ln] hb
  obtain ⟨hv, hwf, hap2⟩ := writes_twice m minima lnums _ _ hw1 h2 hap hw2
  refine ⟨?_, hwf, hw2.1, hap2⟩
  unfold readBack
  simp only
  rw [hv, hv1, hv2, hvb]

/-- On well formed slices that share no storage, `updateMinimumMem` and the function
`updateMinimum` on the lists of elements agree: either both fault, or both return, the
slices returned hold the lists returned, and they are again well formed and share no
storage. -/
theorem updateMinimumMem_refines (grow : Nat → Nat → Nat) (hg : ∀ o n, n ≤ grow o n)
    (m : Mem) (minima lnums : Slice) (d : Int) (sv : List Str) (s1 : Str) (ln : Int)
    (h1 : minima.WF m) (h2 : lnums.WF m) (hap : minima.Apart lnums) :
    (updateMinimumMem grow m minima d sv s1 lnums ln = none ∧
        updateMinimum (view m minima) d sv s1 (view m lnums) ln = none) ∨
      ∃ r, updateMinimumMem grow m minima d sv s1 lnums ln = some r ∧
        updateMinimum (view m minima) d sv s1 (view m lnums) ln = some (readBack r) ∧
        r.2.1.WF r.1 ∧ r.2.2.2.WF r.1 ∧ r.2.1.Apart r.2.2.2 := by
  obtain ⟨hb, hwfa, hwfb, hapart⟩ := appendInts_both grow hg m minima lnums d ln (sv ++ [s1]) h1 h2 hap
  unfold updateMinimumMem updateMinimum
  rw [length_view]
  by_cases h0 : minima.len = 0
  · right
    rw [if_pos h0, if_pos h0]
    exact ⟨_, rfl, by rw [hb], hwfa, hwfb, hapart⟩
  · rw [if_neg h0, if_neg h0]
    simp only
    by_cases hA : scan d (view m minima) 0 = -1 ∧ minima.len < MIN_SET_SIZE
    · right
      rw [if_pos hA, if_pos hA]
      exact ⟨_, rfl, by rw [hb], hwfa, hwfb, hapart⟩
    · rw [if_neg hA, if_neg hA]
      by_cases hpos : scan d (view m minima) 0 > -1
      · rw [if_pos hpos, if_pos hpos]
        generalize (scan d (view m minima) 0).toNat = i
        by_cases hi1 : i ≤ minima.len
        · obtain ⟨r1, hr1, hw1, hv1⟩ := insertIntAt_some grow hg m minima i d h1 hi1
          obtain ⟨hw1t, hv1t⟩ := trimSlice_writes m minima r1 hw1
          obtain ⟨hvb, hb2, -⟩ := writes_frame m minima lnums r1 hw1 h2 hap
          rw [hr1, insertAt_eq (view m minima) i d (by rw [length_view]; exact hi1)]
          simp only [Option.bind_eq_bind, Option.some_bind]
          by_cases hi2 : i ≤ sv.length
          · rw [insertAt_eq sv i s1 hi2]
            simp only [Option.some_bind]
            by_cases hi3 : i ≤ lnums.len
            · right
              obtain ⟨r2, hr2, hw2, hv2⟩ := insertIntAt_some grow hg r1.1 lnums i ln hb2 hi3
              obtain ⟨hw2t, hv2t⟩ := trimSlice_writes r1.1 lnums r2 hw2
              obtain ⟨hv, hwf, hap2⟩ :=
                writes_twice m minima lnums (r1.1, trimSlice r1.2) (r2.1, trimSlice r2.2)
                  hw1t h2 hap hw2t
              rw [hr2, insertAt_eq (view m lnums) i ln (by rw [length_view]; exact hi3)]
              simp only [Option.some_bind]
              refine ⟨_, rfl, ?_, hwf, hw2t.1, hap2⟩
              unfold readBack
              simp only at hv hv1t hv2t ⊢
              rw [hv, hv1t, hv1, hv2t, hv2, hvb]
            · left
              rw [insertIntAt_none grow r1.1 lnums i ln hi3,
                insertAt_none (view m lnums) i ln (by rw [length_view]; exact hi3)]
              exact ⟨rfl, rfl⟩
          · left
            rw [insertAt_none sv i s1 hi2]
            exact ⟨rfl, rfl⟩
        · left
          rw [insertIntAt_none grow m minima i d hi1,
            insertAt_none (view m minima) i d (by rw [length_view]; exact hi1)]
          exact ⟨rfl, rfl⟩
      · right
        rw [if_neg hpos, if_neg hpos]
        exact ⟨_, rfl, rfl, h1, h2, hap⟩

/-- A stream of inserts from the slices that `refSimilarity` allocates gives the same
elements as `insertAll` on lists. -/
theorem foldlM_updateMinimumMem (grow : Nat → Nat → Nat) (hg : ∀ o n, n ≤ grow o n)
    (xs : List Entry) :
    ∀ st : Mem × Slice × List Str × Slice,
      st.2.1.WF st.1 → st.2.2.2.WF st.1 → st.2.1.Apart st.2.2.2 →
      (xs.foldlM
            (fun st x => updateMinimumMem grow st.1 st.2.1 x.1 st.2.2.1 x.2.1 st.2.2.2 x.2.2)
            st = none ∧
          xs.foldlM (fun st x => updateMinimum st.1 x.1 st.2.1 x.2.1 st.2.2 x.2.2)
            (readBack st) = none) ∨
        ∃ r,
          xs.foldlM
            (fun st x => updateMinimumMem grow st.1 st.2.1 x.1 st.2.2.1 x.2.1 st.2.2.2 x.2.2)
            st = some r ∧
          xs.foldlM (fun st x => updateMinimum st.1 x.1 st.2.1 x.2.1 st.2.2 x.2.2)
            (readBack st) = some (readBack r) := by
  induction xs with
  | nil =>
    intro st _ _ _
    right
    exact ⟨st, rfl, rfl⟩
  | cons x xs ih =>
    intro st h1 h2 hap
    simp only [List.foldlM_cons]
    have hrb : updateMinimum (readBack st).1 x.1 (readBack st).2.1 x.2.1 (readBack st).2.2 x.2.2 =
        updateMinimum (view st.1 st.2.1) x.1 st.2.2.1 x.2.1 (view st.1 st.2.2.2) x.2.2 := rfl
    rw [hrb]
    rcases updateMinimumMem_refines grow hg st.1 st.2.1 st.2.2.2 x.1 st.2.2.1 x.2.1 x.2.2
      h1 h2 hap with ⟨hn1, hn2⟩ | ⟨r, hr1, hr2, hw1, hw2, hap2⟩
    · left
      rw [hn1, hn2]
      exact ⟨rfl, rfl⟩
    · rw [hr1, hr2]
      simp only [Option.bind_eq_bind, Option.some_bind]
      exact ih r hw1 hw2 hap2

theorem insertAllMem_refines (grow : Nat → Nat → Nat) (hg : ∀ o n, n ≤ grow o n)
    (xs : List Entry) :
    ∃ r, insertAllMem grow xs = some r ∧ insertAll xs = some (readBack r) := by
  have h := foldlM_updateMinimumMem grow hg xs
    ((makeInts (makeInts { cell := fun _ => 0, next := 0 } MIN_SET_SIZE).1 MIN_SET_SIZE).1,
      (makeInts { cell := fun _ => 0, next := 0 } MIN_SET_SIZE).2, [],
      (makeInts (makeInts { cell := fun _ => 0, next := 0 } MIN_SET_SIZE).1 MIN_SET_SIZE).2)
    (by decide) (by decide) (by decide)
  have e0 : readBack
      ((makeInts (makeInts { cell := fun _ => 0, next := 0 } MIN_SET_SIZE).1 MIN_SET_SIZE).1,
        (makeInts { cell := fun _ => 0, next := 0 } MIN_SET_SIZE).2, [],
        (makeInts (makeInts { cell := fun _ => 0, next := 0 } MIN_SET_SIZE).1 MIN_SET_SIZE).2) =
      ([], [], []) := rfl
  rw [e0] at h
  rcases h with ⟨-, hn⟩ | ⟨r, hr1, hr2⟩
  · obtain ⟨r, hr, -⟩ := insertAll_preserves xs
    unfold insertAll at hr
    rw [hr] at hn
    exact absurd hn (by simp)
  · exact ⟨r, hr1, hr2⟩

/-- Claim C10 as stated fails: `minima` and `lnums` can be slices of one array.  With
the array `[5 9 _]` (length 2, capacity 3) passed as both, `d = 2` and `ln = 7`, the
arguments satisfy the invariant, `minima` is rebuilt in place as `[2 5 9]`, `lnums` is
then rebuilt in the same cells as `[7 2 5]`, and the slice `minima` returned reads
`[7, 2, 5]`, which is not ascending. -/
theorem updateMinimum_invariant_counterexample :
    (⟨0, 2, 3⟩ : Slice).WF (memOf [5, 9, 0]) ∧
      MinimaInv (view (memOf [5, 9, 0]) ⟨0, 2, 3⟩, [[97], [98]], view (memOf [5, 9, 0]) ⟨0, 2, 3⟩) ∧
      (updateMinimumMem (fun _ n => n) (memOf [5, 9, 0]) ⟨0, 2, 3⟩ 2 [[97], [98]] [99]
          ⟨0, 2, 3⟩ 7).map readBack =
        some ([7, 2, 5], [[99], [97], [98]], [7, 2, 5]) ∧
      ¬ MinimaInv ([7, 2, 5], [[99], [97], [98]], [7, 2, 5]) := by
  unfold MinimaInv MIN_SET_SIZE
  decide

/-- Claim C10, amended: the invariant of the bounded minima structure, for slices
that share no storage.  If `minima` and `lnums` are well formed slices with no cell in
common, `minima` is sorted ascending with at most three elements and `sv`, `lnums`
have its length, then `updateMinimum` returns slices with the same properties; hence
they hold after any stream of inserts applied to the empty slices that
`refSimilarity` allocates.  The capacity `grow` of a new array is any that suffices. -/
theorem updateMinimum_invariant (grow : Nat → Nat → Nat) (hg : ∀ o n, n ≤ grow o n) :
    (∀ (m : Mem) (minima lnums : Slice) (d : Int) (sv : List Str) (s1 : Str) (ln : Int),
        minima.WF m → lnums.WF m → minima.Apart lnums →
        MinimaInv (view m minima, sv, view m lnums) →
        ∃ r, updateMinimumMem grow m minima d sv s1 lnums ln = some r ∧
          MinimaInv (readBack r) ∧ r.2.1.WF r.1 ∧ r.2.2.2.WF r.1 ∧ r.2.1.Apart r.2.2.2) ∧
      ∀ xs : List Entry, ∃ r, insertAllMem grow xs = some r ∧ MinimaInv (readBack r) := by
  constructor
  · intro m minima lnums d sv s1 ln h1 h2 hap hinv
    obtain ⟨r0, hr0, hinv0⟩ := updateMinimum_preserves _ sv _ d s1 ln hinv
    rcases updateMinimumMem_refines grow hg m minima lnums d sv s1 ln h1 h2 hap with
      ⟨-, hn⟩ | ⟨r, hr1, hr2, hw1, hw2, hap2⟩
    · rw [hr0] at hn
      exact absurd hn (by simp)
    · rw [hr0] at hr2
      have e : r0 = readBack r := Option.some.inj hr2
      rw [e] at hinv0
      exact ⟨r, hr1, hinv0, hw1, hw2, hap2⟩
  · intro xs
    obtain ⟨r, hr1, hr2⟩ := insertAllMem_refines grow hg xs
    obtain ⟨r0, hr0, hinv0⟩ := insertAll_preserves xs
    rw [hr0] at hr2
    have e : r0 = readBack r := Option.some.inj hr2
    rw [e] at hinv0
    exact ⟨r, hr1, hinv0⟩

/-- Claim C10, amended, at the arrays `[1 2 2]` for `minima` and `[0 1 2]` for `lnums`,
one behind the other in memory, with the insert `(1, "d", 3)`, and at a stream of
four inserts. -/
theorem updateMinimum_invariant_witness :
    ((⟨0, 3, 3⟩ : Slice).WF (memOf [1, 2, 2, 0, 1, 2]) ∧
        (⟨3, 3, 3⟩ : Slice).WF (memOf [1, 2, 2, 0, 1, 2]) ∧
        (⟨0, 3, 3⟩ : Slice).Apart ⟨3, 3, 3⟩ ∧
        MinimaInv (view (memOf [1, 2, 2, 0, 1, 2]) ⟨0, 3, 3⟩, [[97], [98], [99]],
          view (memOf [1, 2, 2, 0, 1, 2]) ⟨3, 3, 3⟩)) ∧
      (∃ r, updateMinimumMem (fun _ n => n) (memOf [1, 2, 2, 0, 1, 2]) ⟨0, 3, 3⟩ 1
          [[97], [98], [99]] [100] ⟨3, 3, 3⟩ 3 = some r ∧
        MinimaInv (readBack r) ∧ r.2.1.WF r.1 ∧ r.2.2.2.WF r.1 ∧ r.2.1.Apart r.2.2.2) ∧
      ∃ r, insertAllMem (fun _ n => n)
          [(4, [97], 0), (1, [98], 1), (3, [99], 2), (2, [100], 3)] = some r ∧
        MinimaInv (readBack r) :=
  ⟨⟨by decide, by decide, by decide, by unfold MinimaInv MIN_SET_SIZE; decide⟩,
    (updateMinimum_invariant (fun _ n => n) (fun _ _ => Nat.le_refl _)).1
      (memOf [1, 2, 2, 0, 1, 2]) ⟨0, 3, 3⟩ ⟨3, 3, 3⟩ 1 [[97], [98], [99]] [100] 3
      (by decide) (by decide) (by decide) (by unfold MinimaInv MIN_SET_SIZE; decide),
    (updateMinimum_invariant (fun _ n => n) (fun _ _ => Nat.le_refl _)).2
      [(4, [97], 0), (1, [98], 1), (3, [99], 2), (2, [100], 3)]⟩

/-- Claim C20, evaluated at the input where the code departs from it: with
`minima = [5]` and `d = 2` the element 5 is larger than `d`; `updateMinimum` places 2
at index 0 and removes nothing.  It returns `[2, 5]`: the length grows from 1 to 2
and the former last element 5, the highest value, is still in the vector.  The
result is the same with the storage explicit, each slice in an array of its own. -/
theorem updateMinimum_keeps_highest :
    updateMinimum [5] 2 [[97]] [98] [0] 1 = some ([2, 5], [[98], [97]], [1, 0]) ∧
      (updateMinimumMem (fun _ n => n) (memOf [5, 0]) ⟨0, 1, 1⟩ 2 [[97]] [98] ⟨1, 1, 1⟩ 1).map
          readBack = some ([2, 5], [[98], [97]], [1, 0]) ∧
      ([2, 5] : List Int).length ≠ ([5] : List Int).length ∧ (5 : Int) ∈ ([2, 5] : List Int) := by
  decide

/-! ## The lines printed for one test string -/

theorem linesFor_append (a b : List Line) (p : Nat) :
    linesFor (a ++ b) p = linesFor a p ++ linesFor b p := by
  unfold linesFor
  rw [List.filterMap_append]

theorem linesFor_marker (l : List Line) (p : Nat) :
    linesFor (Line.marker :: l) p = linesFor l p := by
  unfold linesFor
  rw [List.filterMap_cons_none rfl]

theorem linesFor_block (b : List Result) (i p : Nat)
    (h : ∀ r ∈ b, r.pos1 = (i : Int) + 1) :
    linesFor (b.map Line.result) p = if p = i then b else [] := by
  induction b with
  | nil =>
    split <;> rfl
  | cons r rest ih =>
    have hr : r.pos1 = (i : Int) + 1 := h r (List.mem_cons_self _ _)
    have ih' := ih (fun x hx => h x (List.mem_cons_of_mem _ hx))
    unfold linesFor at ih' ⊢
    by_cases hp : p = i
    · subst hp
      rw [if_pos rfl] at ih' ⊢
      rw [List.map_cons, List.filterMap_cons_some (b := r) (by simp [hr]), ih']
    · rw [if_neg hp] at ih' ⊢
      have hne : ¬ r.pos1 = (p : Int) + 1 := by omega
      rw [List.map_cons, List.filterMap_cons_none (by simp [hne]), ih']

theorem pos1_refBlock (v1 : List Str) (i : Nat) (s2 : Str) :
    ∀ r ∈ refBlock v1 i s2, r.pos1 = (i : Int) + 1 := by
  intro r hr
  unfold refBlock at hr
  obtain ⟨e, -, rfl⟩ := List.mem_map.mp hr
  rfl

theorem linesFor_refBlocks_lt (v1 v2 : List Str) :
    ∀ i p : Nat, p < i → linesFor (render (refBlocks v1 i v2)) p = [] := by
  induction v2 with
  | nil =>
    intro i p _
    rfl
  | cons s2 rest ih =>
    intro i p hp
    unfold refBlocks
    rw [render_cons, linesFor_append, linesFor_marker,
      linesFor_block _ i p (pos1_refBlock v1 i s2), if_neg (by omega), ih (i + 1) p (by omega)]
    rfl

/-- The lines printed for the test string at index `p` are the result lines of its
block. -/
theorem linesFor_refBlocks (v1 v2 : List Str) :
    ∀ (i p : Nat) (t : Str), v2[p]? = some t →
      linesFor (render (refBlocks v1 i v2)) (i + p) = refBlock v1 (i + p) t := by
  induction v2 with
  | nil =>
    intro i p t ht
    simp at ht
  | cons s2 rest ih =>
    intro i p t ht
    unfold refBlocks
    rw [render_cons, linesFor_append, linesFor_marker,
      linesFor_block _ i (i + p) (pos1_refBlock v1 i s2)]
    cases p with
    | zero =>
      simp only [List.getElem?_cons_zero, Option.some.injEq] at ht
      subst ht
      simp only [Nat.add_zero, if_true]
      rw [linesFor_refBlocks_lt v1 rest (i + 1) i (by omega)]
      simp
    | succ p =>
      simp only [List.getElem?_cons_succ] at ht
      have e : i + (p + 1) = i + 1 + p := by omega
      rw [if_neg (by omega), e, ih (i + 1) p t ht]
      rfl

theorem positions_refStream (s2 : Str) (v1 : List Str) :
    ∀ j : Nat, (refStream s2 j v1).map (fun e => e.2.2) =
      (List.range' j v1.length).map (fun k : Nat => (k : Int)) := by
  induction v1 with
  | nil =>
    intro j
    rfl
  | cons s rest ih =>
    intro j
    unfold refStream
    rw [List.map_cons, ih (j + 1), List.length_cons, List.range'_succ, List.map_cons]

theorem nodup_retained (v1 : List Str) (s2 : Str) :
    ((retained v1 s2).map (fun e => e.2.2)).Nodup := by
  have h0 : ((refStream s2 0 v1).map (fun e => e.2.2)).Nodup := by
    rw [positions_refStream]
    exact List.Nodup.map (fun a b h => by simpa using h) (List.nodup_range' 0 v1.length)
  have h1 : (((refStream s2 0 v1).insertionSort byDistance).map (fun e => e.2.2)).Nodup :=
    ((List.perm_insertionSort byDistance _).map _).nodup_iff.mpr h0
  unfold retained
  exact List.Nodup.sublist ((List.take_sublist _ _).map _) h1

/-- Claim C11: `refSimilarity` prints the most similar reference strings.  For every
test string `t` at index `p`, the lines printed for `t` are `min 3 |R|` lines; they
carry different reference positions, each with the reference string at this position
and its distance to `t`; and every reference string whose position is not among them
has a distance to `t` greater than or equal to the distance of every line printed
for `t`. -/
theorem refSimilarity_most_similar (v1 v2 : List Str) :
    ∃ out, refSimilarity v1 v2 = some out ∧
      ∀ (p : Nat) (t : Str), v2[p]? = some t →
        (linesFor out p).length = Nat.min 3 v1.length ∧
        ((linesFor out p).map (fun r => r.pos2)).Nodup ∧
        (∀ r ∈ linesFor out p, ∃ (j : Nat) (s : Str), v1[j]? = some s ∧
          r.pos2 = (j : Int) + 1 ∧ r.str2 = s ∧ distance s t = some r.d) ∧
        ∀ (j : Nat) (s : Str) (dj : Int), v1[j]? = some s → distance s t = some dj →
          (∀ r ∈ linesFor out p, r.pos2 ≠ (j : Int) + 1) →
          ∀ r ∈ linesFor out p, r.d ≤ dj := by
  refine ⟨_, refSimilarity_eq v1 v2, ?_⟩
  intro p t ht
  have hlines := linesFor_refBlocks v1 v2 0 p t ht
  rw [Nat.zero_add] at hlines
  rw [hlines]
  unfold refBlock
  refine ⟨by rw [List.length_map, length_retained], ?_, ?_, ?_⟩
  · rw [List.map_map]
    have h := List.Nodup.map (f := fun x : Int => x + 1) (fun a b h => by simpa using h)
      (nodup_retained v1 t)
    rw [List.map_map] at h
    exact h
  · intro r hr
    obtain ⟨e, he, rfl⟩ := List.mem_map.mp hr
    obtain ⟨k, s1, hk, rfl⟩ := (mem_refStream t v1 e 0).mp (retained_subset v1 t e he)
    refine ⟨k, s1, hk, ?_, rfl, distance_eq_D s1 t⟩
    unfold entryResult
    simp only [Nat.zero_add]
  · intro j s dj hs hdj hout r hr
    rw [distance_eq_D] at hdj
    have hdj' : D s t s.length t.length = dj := Option.some.inj hdj
    obtain ⟨e, he, rfl⟩ := List.mem_map.mp hr
    have hmem : (D s t s.length t.length, s, (j : Int)) ∈ refStream t 0 v1 := by
      rw [mem_refStream]
      exact ⟨j, s, hs, by rw [Nat.zero_add]⟩
    have hsorted : ((refStream t 0 v1).insertionSort byDistance).Pairwise byDistance :=
      List.sorted_insertionSort byDistance _
    rw [← List.take_append_drop MIN_SET_SIZE ((refStream t 0 v1).insertionSort byDistance)]
      at hsorted
    have hmem' := (List.perm_insertionSort byDistance _).mem_iff.mpr hmem
    rw [← List.take_append_drop MIN_SET_SIZE ((refStream t 0 v1).insertionSort byDistance),
      List.mem_append] at hmem'
    rcases hmem' with hin | hin
    · exfalso
      exact hout _ (List.mem_map.mpr ⟨_, hin, rfl⟩) rfl
    · have := (List.pairwise_append.mp hsorted).2.2 e he _ hin
      unfold byDistance at this
      unfold entryResult
      simp only at this ⊢
      omega

/-- Claim C11 at the reference strings `"cat"`, `"cart"`, `"car"`, `"care"` and the test
string `"care"`: the three lines printed carry the positions 4, 2, 3 with the
distances 0, 1, 1; the position 1 of `"cat"` is not printed, and every printed
distance is at most the distance 2 of `"cat"` to `"care"`. -/
theorem refSimilarity_most_similar_witness :
    ∃ out,
      refSimilarity [[99, 97, 116], [99, 97, 114, 116], [99, 97, 114], [99, 97, 114, 101]]
        [[99, 97, 114, 101]] = some out ∧
      (linesFor out 0).map (fun r => (r.pos2, r.d)) = [(4, 0), (2, 1), (3, 1)] ∧
      (∀ r ∈ linesFor out 0, r.pos2 ≠ ((0 : Nat) : Int) + 1) ∧
      ∀ r ∈ linesFor out 0, r.d ≤ 2 := by
  obtain ⟨out, hout, h⟩ :=
    refSimilarity_most_similar [[99, 97, 116], [99, 97, 114, 116], [99, 97, 114], [99, 97, 114, 101]]
      [[99, 97, 114, 101]]
  have hval :
      refSimilarity [[99, 97, 116], [99, 97, 114, 116], [99, 97, 114], [99, 97, 114, 101]]
        [[99, 97, 114, 101]] =
      some [
        Line.result { score := Score.ratio 0 8, d := 0, pos1 := 1, pos2 := 4,
                      str1 := [99, 97, 114, 101], str2 := [99, 97, 114, 101] },
        Line.result { score := Score.ratio 1 8, d := 1, pos1 := 1, pos2 := 2,
                      str1 := [99, 97, 114, 101], str2 := [99, 97, 114, 116] },
        Line.result { score := Score.ratio 1 7, d := 1, pos1 := 1, pos2 := 3,
                      str1 := [99, 97, 114, 101], str2 := [99, 97, 114] },
        Line.marker] := by
    decide
  rw [hval] at hout
  have e := Option.some.inj hout
  subst e
  have hyp : ∀ r ∈ linesFor
      [Line.result { score := Score.ratio 0 8, d := 0, pos1 := 1, pos2 := 4,
                      str1 := [99, 97, 114, 101], str2 := [99, 97, 114, 101] },
        Line.result { score := Score.ratio 1 8, d := 1, pos1 := 1, pos2 := 2,
                      str1 := [99, 97, 114, 101], str2 := [99, 97, 114, 116] },
        Line.result { score := Score.ratio 1 7, d := 1, pos1 := 1, pos2 := 3,
                      str1 := [99, 97, 114, 101], str2 := [99, 97, 114] },
        Line.marker] 0, r.pos2 ≠ ((0 : Nat) : Int) + 1 := by
    decide
  exact ⟨_, hval, by decide, hyp,
    (h 0 [99, 97, 114, 101] rfl).2.2.2 0 [99, 97, 116] 2 rfl (by decide) hyp⟩

end Similarity
